import Mathlib

/-!
# Spatio-temporal factor copula likelihoods (`src/stfc.cpp`)

A shallow embedding of the numerical code of `stfc.cpp`.

Modelling conventions.

* A C `double` is a real number: no rounding, no overflow, no underflow.
* The only ways a computation on finite reals leaves the finite reals in this model are
  a logarithm of a non-positive number and a division by zero.  Where the source tests the
  result with `R_finite`, the value is an `Option ℝ` and `none` stands for "not finite".
  Where the source does not test it (the quadrature routine), the run stops with
  `Fault.nonFinite`.
* Every subscript on a vector or matrix is checked: an access outside the container
  stops the run with `Fault.outOfBounds` (the source has undefined behaviour there).
* The `do … while` loop of `gauleg` takes a fuel argument counting its iterations; a run
  that needs more stops with `Fault.outOfFuel`.
-/

namespace Stfc

noncomputable section

/-! ## Faults, checked container access, guarded arithmetic -/

/-- Reasons for which a run of the model stops without a value. -/
inductive Fault where
  | outOfBounds
  | nonFinite
  | outOfFuel
  deriving DecidableEq

/-- Checked read `xs[i]`. -/
def rd {α : Type} (xs : List α) (i : ℕ) : Except Fault α :=
  match xs[i]? with
  | some v => .ok v
  | none => .error .outOfBounds

/-- Checked write `xs[i] = v`. -/
def wr {α : Type} (xs : List α) (i : ℕ) (v : α) : Except Fault (List α) :=
  if i < xs.length then .ok (xs.set i v) else .error .outOfBounds

/-- Division of doubles whose result may be non-finite: `a / b`. -/
def fdiv (a b : ℝ) : Option ℝ :=
  if b = 0 then none else some (a / b)

/-- Logarithm of a double whose result may be non-finite: `log(x)`. -/
def flog (x : ℝ) : Option ℝ :=
  if 0 < x then some (Real.log x) else none

/-- Addition of possibly non-finite doubles: a non-finite summand gives a non-finite sum. -/
def fadd (a b : Option ℝ) : Option ℝ :=
  match a, b with
  | some x, some y => some (x + y)
  | _, _ => none

/-- Negation of a possibly non-finite double. -/
def fneg (a : Option ℝ) : Option ℝ :=
  a.map (fun x => -x)

/-- Modelled from the spec: `R_finite` comes from the R headers, which are not under `src/`;
the spec calls the values it rejects "non-finite". -/
def R_finite (a : Option ℝ) : Bool :=
  a.isSome

/-- Modelled from the spec: the constant `PI` comes from the R headers, which are not under
`src/`; the spec gives the angular frequency as `2π/M`. -/
def PI : ℝ := Real.pi

/-! ## GSL functions -/

/-- Modelled from the spec: the standard normal distribution function `Φ` (GSL's
`gsl_cdf_ugaussian_P`), the distribution function of the Gaussian measure with mean `0`
and variance `1`. -/
def Phi (x : ℝ) : ℝ := ProbabilityTheory.cdf (ProbabilityTheory.gaussianReal 0 1) x

/-- Modelled from the spec: `gsl_cdf_ugaussian_Pinv`, the normal quantile `Φ⁻¹`: a point at which
`Φ` takes the value `u`.  Such a point exists exactly for `0 < u < 1`; GSL returns an
infinity at `0` and `1`, outside the finite reals, and the model's value there is
arbitrary. -/
def gsl_cdf_ugaussian_Pinv (u : ℝ) : ℝ :=
  Classical.epsilon (fun x => Phi x = u)

/-- Modelled from the spec: `gsl_cdf_gaussian_P(x, sigma)`, the distribution function of the
centred Gaussian with standard deviation `sigma`, that is `Φ(x / sigma)`. -/
def gsl_cdf_gaussian_P (x sigma : ℝ) : ℝ := Phi (x / sigma)

/-- Modelled from the spec: `gsl_sf_fact(n)`, the factorial `n!` of an unsigned integer,
as a double. -/
def gsl_sf_fact (n : ℕ) : ℝ := (n.factorial : ℝ)

/-! ## Gaussian quadrature: `gauleg` -/

/-- The tolerance `#define EPS 3.0e-11`. -/
def EPS : ℝ := 3.0e-11

/-- One pass of the body of `for(j=1;j<=n;j++)`: with `p = (p1, p2)` on entry,
`p3=p2; p2=p1; p1=((2.0*j-1.0)*z*p2-(j-1.0)*p3)/j`. -/
def legendreStep (z : ℝ) (p : ℝ × ℝ) (j : ℕ) : ℝ × ℝ :=
  (((2.0 * (j : ℝ) - 1.0) * z * p.1 - ((j : ℝ) - 1.0) * p.2) / (j : ℝ), p.1)

/-- The inner loop `p1=1.0; p2=0.0; for(j=1;j<=n;j++) …`; the result is `(p1, p2)`. -/
def legendre (n : ℕ) (z : ℝ) : ℝ × ℝ :=
  (List.range' 1 n).foldl (legendreStep z) (1.0, 0.0)

/-- The `do … while (fabs(z-z1) > EPS)` loop, started at `z`, with at most `fuel`
iterations; the result is the final `(z, pp)`. -/
def newton (n : ℕ) : ℕ → ℝ → Except Fault (ℝ × ℝ)
  | 0, _ => .error .outOfFuel
  | fuel + 1, z =>
    let p := legendre n z
    if z * z - 1.0 = 0 then .error .nonFinite
    else
      let pp := (n : ℝ) * (z * p.1 - p.2) / (z * z - 1.0)
      if pp = 0 then .error .nonFinite
      else
        let z1 := z
        let z' := z1 - p.1 / pp
        if |z' - z1| > EPS then newton n fuel z' else .ok (z', pp)

/-- The body of `for(i=1;i<=m;++i)` in `gauleg`, on the state `(xq, wq)`. -/
def gaulegBody (fuel n : ℕ) (xm xl : ℝ) (s : List ℝ × List ℝ) (i : ℕ) :
    Except Fault (List ℝ × List ℝ) := do
  let (z, pp) ← newton n fuel
    (Real.cos (3.14159265358979323846 * ((i : ℝ) - 0.25) / ((n : ℝ) + 0.5)))
  let xq ← wr s.1 (i - 1) (xm - xl * z)
  let xq ← wr xq (n - i) (xm + xl * z)
  if (1.0 - z * z) * pp * pp = 0 then Except.error Fault.nonFinite
  else do
    let wq ← wr s.2 (i - 1) (2.0 * xl / ((1.0 - z * z) * pp * pp))
    let v ← rd wq (i - 1)
    let wq ← wr wq (n - i) v
    pure (xq, wq)

/-- The routine `gauleg(nq, xq, wq)`: nodes and weights on `[0,1]`, written into the
vectors `xq` and `wq` that the caller passes. -/
def gauleg (fuel nq : ℕ) (xq wq : List ℝ) : Except Fault (List ℝ × List ℝ) :=
  let n := nq
  let m := (n + 1) / 2
  let x1 : ℝ := 0
  let x2 : ℝ := 1
  let xm := 0.5 * (x2 + x1)
  let xl := 0.5 * (x2 - x1)
  (List.range' 1 m).foldlM (gaulegBody fuel n xm xl) (xq, wq)

/-! ## Copula and shifted-Poisson primitives -/

/-- The bivariate normal copula density `denB1(u, v, r)`. -/
def denB1 (u v r : ℝ) : ℝ :=
  let x := gsl_cdf_ugaussian_Pinv u
  let y := gsl_cdf_ugaussian_Pinv v
  let tem0 := 1 - r ^ 2
  let tem1 := tem0 ^ (-0.5 : ℝ)
  let tem2 := x ^ 2 + y ^ 2
  let tem3 := Real.exp (-0.5 / tem0 * (tem2 - 2 * r * x * y))
  let tem4 := Real.exp (tem2 / 2)
  tem1 * tem3 * tem4

/-- The conditional copula distribution function `C2B1(u, v, rho)`. -/
def C2B1 (u v rho : ℝ) : ℝ :=
  let x1 := gsl_cdf_ugaussian_Pinv u
  let x2 := gsl_cdf_ugaussian_Pinv v
  let mu := rho * x2
  let sig := (1 - rho ^ 2) ^ (0.5 : ℝ)
  gsl_cdf_gaussian_P (x1 - mu) sig

/-- The shifted-Poisson density `dSPoi(x, lam)`; the argument `x-1` of `gsl_sf_fact` is
converted from double to unsigned int. -/
def dSPoi (x lam : ℝ) : ℝ :=
  Real.exp (-lam) * lam ^ (x - 1) / gsl_sf_fact ⌊x - 1⌋₊

/-- The shifted-Poisson distribution function `FSPoi(x, lam)`: the loop
`for(i=1; i<=x; ++i)` runs for `i = 1, …, ⌊x⌋` (not at all when `x < 1`). -/
def FSPoi (x lam : ℝ) : ℝ :=
  (List.range' 1 ⌊x⌋₊).foldl
    (fun (out : ℝ) (i : ℕ) => out + Real.exp (-lam) * lam ^ ((i : ℝ) - 1) / gsl_sf_fact (i - 1)) 0.0

/-! ## The likelihood evaluators -/

/-- One row of the data matrix `dat`: columns `tt`, `y`, `LON`, `LAT`. -/
structure Obs where
  tt : ℝ
  y : ℝ
  LON : ℝ
  LAT : ℝ

/-- The angular frequency `w = 2*PI/M` with `M = 12`. -/
def w : ℝ := 2 * PI / ((12 : ℕ) : ℝ)

/-- The loops `for(j=lo;j<hi;++j) weig1.push_back(par[j])`. -/
def slice (par : List ℝ) (lo hi : ℕ) : Except Fault (List ℝ) :=
  (List.range' lo (hi - lo)).mapM (rd par)

/-- The loop `for(j=0;j<Kcen;++j) sumj += weig1[j]*exp(-g*(pow(LON[i]-centers(j,0),2)
+ pow(LAT[i]-centers(j,1),2)))` of `nllk_p_C` and `nllk_lambda_C`, started at `sumj`. -/
def kernelLoop (weig1 : List ℝ) (centers : List (ℝ × ℝ)) (Kcen : ℕ) (g : ℝ) (o : Obs)
    (sumj : ℝ) : Except Fault ℝ :=
  (List.range Kcen).foldlM (fun s j => do
    let wj ← rd weig1 j
    let c ← rd centers j
    pure (s + wj * Real.exp (-g * ((o.LON - c.1) ^ 2 + (o.LAT - c.2) ^ 2)))) sumj

/-- The clamp of `nllk_p_C`: `if(!R_finite(pvec)) pvec = 0.0001; else if(pvec > 0.9999999)
pvec = 0.9999999; else if(pvec < 0.0000001) pvec = 0.0000001`. -/
def clampP (pvec : Option ℝ) : ℝ :=
  if !R_finite pvec then 0.0001
  else if pvec.getD 0 > 0.9999999 then 0.9999999
  else if pvec.getD 0 < 0.0000001 then 0.0000001
  else pvec.getD 0

/-- The local parameters of `nllk_p_C` and of `nllk_lambda_C`: the weight vector `weig1`
and the four trend coefficients (`a0..a3`, respectively `b0..b3`). -/
structure MargPar where
  weig1 : List ℝ
  c0 : ℝ
  c1 : ℝ
  c2 : ℝ
  c3 : ℝ

/-- The slicing of `par` at the head of `nllk_p_C` and `nllk_lambda_C`, in source order. -/
def margPar (par : List ℝ) (Kcen : ℕ) : Except Fault MargPar := do
  let weig1 ← slice par 0 (Kcen + 1)
  let c0 ← rd par (1 + Kcen)
  let c1 ← rd par (2 + Kcen)
  let c2 ← rd par (3 + Kcen)
  let c3 ← rd par (4 + Kcen)
  pure ⟨weig1, c0, c1, c2, c3⟩

/-- The body of the observation loop of `nllk_p_C` for observation `i`, on the
accumulator `nllk`. -/
def pBody (P : MargPar) (dat : List Obs) (centers : List (ℝ × ℝ)) (Kcen : ℕ) (g : ℝ)
    (nllk : ℝ) (i : ℕ) : Except Fault ℝ := do
  let o ← rd dat i
  let s0 ← rd P.weig1 Kcen
  let sumj ← kernelLoop P.weig1 centers Kcen g o s0
  let tmp := Real.exp (sumj + P.c0 + P.c1 * o.tt + P.c2 * Real.sin (w * o.tt)
    + P.c3 * Real.cos (w * o.tt))
  let pvec := if o.y = 1 then fdiv tmp (1 + tmp) else fdiv 1 (1 + tmp)
  pure (nllk - Real.log (clampP pvec))

/-- The evaluator `nllk_p_C(par, dat, centers, Kcen, g)`. -/
def nllk_p_C (par : List ℝ) (dat : List Obs) (centers : List (ℝ × ℝ)) (Kcen : ℕ) (g : ℝ) :
    Except Fault ℝ := do
  let P ← margPar par Kcen
  (List.range dat.length).foldlM (pBody P dat centers Kcen g) 0.0

/-- The body of the observation loop of `nllk_lambda_C` for observation `i`, on the
accumulator `nllk`; the argument `y[i]-1` of `gsl_sf_fact` is converted from double to
unsigned int. -/
def lambdaBody (P : MargPar) (dat : List Obs) (centers : List (ℝ × ℝ)) (Kcen : ℕ) (g : ℝ)
    (nllk : ℝ) (i : ℕ) : Except Fault ℝ := do
  let o ← rd dat i
  let s0 ← rd P.weig1 Kcen
  let sumj ← kernelLoop P.weig1 centers Kcen g o s0
  let loglam := sumj + P.c0 + P.c1 * o.tt + P.c2 * Real.sin (w * o.tt)
    + P.c3 * Real.cos (w * o.tt)
  let lam := Real.exp loglam
  pure (nllk - (-lam + (o.y - 1) * loglam - Real.log (gsl_sf_fact ⌊o.y - 1⌋₊)))

/-- The evaluator `nllk_lambda_C(par, dat, centers, Kcen, g)`. -/
def nllk_lambda_C (par : List ℝ) (dat : List Obs) (centers : List (ℝ × ℝ)) (Kcen : ℕ)
    (g : ℝ) : Except Fault ℝ := do
  let P ← margPar par Kcen
  (List.range dat.length).foldlM (lambdaBody P dat centers Kcen g) 0.0

/-- The local parameter blocks of `nllk_all_C`: the three weight vectors and the trend
coefficients `a0..a3`, `b0..b3`. -/
structure JointPar where
  weig1_p : List ℝ
  weig1_lam : List ℝ
  weig1_dep : List ℝ
  a0 : ℝ
  a1 : ℝ
  a2 : ℝ
  a3 : ℝ
  b0 : ℝ
  b1 : ℝ
  b2 : ℝ
  b3 : ℝ

/-- The slicing of `par` at the head of `nllk_all_C`, in source order. -/
def jointPar (par : List ℝ) (Kcen : ℕ) : Except Fault JointPar := do
  let weig1_p ← slice par 0 (Kcen + 1)
  let a0 ← rd par (1 + Kcen)
  let a1 ← rd par (2 + Kcen)
  let a2 ← rd par (3 + Kcen)
  let a3 ← rd par (4 + Kcen)
  let weig1_lam ← slice par (5 + Kcen) (2 * Kcen + 6)
  let b0 ← rd par (2 * Kcen + 6)
  let b1 ← rd par (2 * Kcen + 7)
  let b2 ← rd par (2 * Kcen + 8)
  let b3 ← rd par (2 * Kcen + 9)
  let weig1_dep ← slice par (2 * Kcen + 10) (3 * Kcen + 11)
  pure ⟨weig1_p, weig1_lam, weig1_dep, a0, a1, a2, a3, b0, b1, b2, b3⟩

/-- One row of `dis`: `dis(i,j) = pow(LON[i]-centers(j,0),2) + pow(LAT[i]-centers(j,1),2)`
for `j = 0, …, Kcen-1`. -/
def disRow (centers : List (ℝ × ℝ)) (Kcen : ℕ) (o : Obs) : Except Fault (List ℝ) :=
  (List.range Kcen).mapM (fun j => do
    let c ← rd centers j
    pure ((o.LON - c.1) ^ 2 + (o.LAT - c.2) ^ 2))

/-- The matrix `dis(dd, Kcen)` of squared distances, filled row by row. -/
def disMatrix (dat : List Obs) (centers : List (ℝ × ℝ)) (Kcen : ℕ) :
    Except Fault (List (List ℝ)) :=
  (List.range dat.length).mapM (fun i => do
    let o ← rd dat i
    disRow centers Kcen o)

/-- The loop `for(j=0;j<Kcen;++j) sumj += weig1[j]*exp(-g*(dis(i,j)))` of `nllk_all_C`,
started at `sumj`. -/
def fieldLoop (weig1 : List ℝ) (dis : List (List ℝ)) (Kcen : ℕ) (g : ℝ) (i : ℕ)
    (sumj : ℝ) : Except Fault ℝ :=
  (List.range Kcen).foldlM (fun s j => do
    let wj ← rd weig1 j
    let row ← rd dis i
    let d ← rd row j
    pure (s + wj * Real.exp (-g * d))) sumj

/-- The correlation of `nllk_all_C`: `tmp_rho = exp(2*sumj_dep);
rho = (tmp_rho - 1) / (tmp_rho + 1)`. -/
def rhoOf (sumj_dep : ℝ) : ℝ :=
  let tmp_rho := Real.exp (2 * sumj_dep)
  (tmp_rho - 1) / (tmp_rho + 1)

/-- The body of the observation loop of `nllk_all_C` up to the test of `logintg_i`:
the value of `logintg_i` for observation `i` at quadrature node `k`.  The denominators
`1 + tmp_p` and `tmp_rho + 1` are sums of `1` and an exponential, so these two divisions
are ordinary ones. -/
def obsTerm (P : JointPar) (dat : List Obs) (dis : List (List ℝ)) (xl : List ℝ) (Kcen : ℕ)
    (g : ℝ) (k i : ℕ) : Except Fault (Option ℝ) := do
  let logintg_i : Option ℝ := some 0.0
  let o ← rd dat i
  let s0 ← rd P.weig1_p Kcen
  let sumj_p ← fieldLoop P.weig1_p dis Kcen g i s0
  let tmp_p := Real.exp (sumj_p + P.a0 + P.a1 * o.tt + P.a2 * Real.sin (w * o.tt)
    + P.a3 * Real.cos (w * o.tt))
  if o.y = 0 then
    pure (fadd logintg_i (fneg (flog (1 + tmp_p))))
  else do
    let pvec_p := tmp_p / (1 + tmp_p)
    let logintg_i := fadd logintg_i (flog pvec_p)
    let s0 ← rd P.weig1_lam Kcen
    let sumj_lam ← fieldLoop P.weig1_lam dis Kcen g i s0
    let loglam := sumj_lam + P.b0 + P.b1 * o.tt + P.b2 * Real.sin (w * o.tt)
      + P.b3 * Real.cos (w * o.tt)
    let lam := Real.exp loglam
    let s0 ← rd P.weig1_dep Kcen
    let sumj_dep ← fieldLoop P.weig1_dep dis Kcen g i s0
    let rho := rhoOf sumj_dep
    let xk ← rd xl k
    pure (fadd logintg_i
      (flog (C2B1 (FSPoi (o.y + 1) lam) xk rho - C2B1 (FSPoi o.y lam) xk rho)))

/-- The update `if(R_finite(logintg_i)) logintg_k += logintg_i`. -/
def addFinite (logintg_k : ℝ) (logintg_i : Option ℝ) : ℝ :=
  if R_finite logintg_i then logintg_k + logintg_i.getD 0 else logintg_k

/-- The observation loop of `nllk_all_C` at node `k`: the final `logintg_k`. -/
def nodeSum (P : JointPar) (dat : List Obs) (dis : List (List ℝ)) (xl : List ℝ) (Kcen : ℕ)
    (g : ℝ) (k : ℕ) : Except Fault ℝ :=
  (List.range dat.length).foldlM (fun logintg_k i => do
    let logintg_i ← obsTerm P dat dis xl Kcen g k i
    pure (addFinite logintg_k logintg_i)) 0.0

/-- The quadrature loop of `nllk_all_C`: `intg += exp(logintg_k) * wl[k]` over the nodes. -/
def nodeLoop (P : JointPar) (dat : List Obs) (dis : List (List ℝ)) (xl wl : List ℝ)
    (Kcen : ℕ) (g : ℝ) (nq : ℕ) : Except Fault ℝ :=
  (List.range nq).foldlM (fun intg k => do
    let logintg_k ← nodeSum P dat dis xl Kcen g k
    let wk ← rd wl k
    pure (intg + Real.exp logintg_k * wk)) 0.0

/-- The evaluator `nllk_all_C(par, dat, centers, Kcen, g, nq)`; `fuel` bounds the
iterations of each Newton loop of `gauleg`. -/
def nllk_all_C (fuel : ℕ) (par : List ℝ) (dat : List Obs) (centers : List (ℝ × ℝ))
    (Kcen : ℕ) (g : ℝ) (nq : ℕ) : Except Fault ℝ := do
  let (xl, wl) ← gauleg fuel nq (List.replicate nq 0) (List.replicate nq 0)
  let P ← jointPar par Kcen
  let dis ← disMatrix dat centers Kcen
  nodeLoop P dat dis xl wl Kcen g nq

/-! ## The link of the specification (§4.3) and closed forms -/

/-- Squared Euclidean distance `dist²(obs, center)` in (longitude, latitude) space. -/
def dist2 (o : Obs) (c : ℝ × ℝ) : ℝ :=
  (o.LON - c.1) ^ 2 + (o.LAT - c.2) ^ 2

/-- The spatial field of §4.3 for the parameter block that starts at index `off`:
`field = w[Kcen] + Σ_{j<Kcen} w[j]·exp(−g·dist²(obs, center_j))` with `w[j] = par[off+j]`. -/
def specField (par : List ℝ) (off : ℕ) (centers : List (ℝ × ℝ)) (Kcen : ℕ) (g : ℝ)
    (o : Obs) : ℝ :=
  par.getD (off + Kcen) 0
    + ∑ j in Finset.range Kcen,
        par.getD (off + j) 0 * Real.exp (-g * dist2 o (centers.getD j (0, 0)))

/-- The link of §4.3: `link = field + c0 + c1·t + c2·sin(ω·t) + c3·cos(ω·t)`, where the
trend coefficients are the four entries that follow the intercept of the block. -/
def specLink (par : List ℝ) (off : ℕ) (centers : List (ℝ × ℝ)) (Kcen : ℕ) (g : ℝ)
    (o : Obs) : ℝ :=
  specField par off centers Kcen g o + par.getD (off + Kcen + 1) 0
    + par.getD (off + Kcen + 2) 0 * o.tt
    + par.getD (off + Kcen + 3) 0 * Real.sin (w * o.tt)
    + par.getD (off + Kcen + 4) 0 * Real.cos (w * o.tt)

/-- The value of `logintg_i` of `nllk_all_C` for the observation `o` at the node `xk`, in
terms of the links of §4.3 (a-block at `0`, b-block at `Kcen+5`, dependence block at
`2*Kcen+10`). -/
def logTerm (par : List ℝ) (centers : List (ℝ × ℝ)) (Kcen : ℕ) (g : ℝ) (o : Obs)
    (xk : ℝ) : Option ℝ :=
  let tmp_p := Real.exp (specLink par 0 centers Kcen g o)
  let lam := Real.exp (specLink par (Kcen + 5) centers Kcen g o)
  let rho := rhoOf (specField par (2 * Kcen + 10) centers Kcen g o)
  if o.y = 0 then fadd (some 0) (fneg (flog (1 + tmp_p)))
  else fadd (fadd (some 0) (flog (tmp_p / (1 + tmp_p))))
    (flog (C2B1 (FSPoi (o.y + 1) lam) xk rho - C2B1 (FSPoi o.y lam) xk rho))

/-- The value `intg` returned by `nllk_all_C` for given nodes `xl` and weights `wl`, where
each node sums the finite terms `logintg_i` only. -/
def jointValue (par : List ℝ) (dat : List Obs) (centers : List (ℝ × ℝ)) (Kcen : ℕ) (g : ℝ)
    (nq : ℕ) (q : List ℝ × List ℝ) : ℝ :=
  ∑ k in Finset.range nq,
    Real.exp ((dat.filterMap (fun o => logTerm par centers Kcen g o (q.1.getD k 0))).sum)
      * q.2.getD k 0

/-- The probability `pvec` of `nllk_p_C` before the clamp, in terms of the link of §4.4. -/
def pvecOf (par : List ℝ) (centers : List (ℝ × ℝ)) (Kcen : ℕ) (g : ℝ) (o : Obs) :
    Option ℝ :=
  let tmp := Real.exp (specLink par 0 centers Kcen g o)
  if o.y = 1 then fdiv tmp (1 + tmp) else fdiv 1 (1 + tmp)

/-- The block `par[lo], …, par[hi-1]` that `slice par lo hi` returns when `hi` is within
the vector. -/
def block (par : List ℝ) (lo hi : ℕ) : List ℝ :=
  (List.range' lo (hi - lo)).map (fun j => par.getD j 0)

/-- The value of `margPar par Kcen` when every read is within the vector. -/
def margParOf (par : List ℝ) (Kcen : ℕ) : MargPar :=
  ⟨block par 0 (Kcen + 1), par.getD (1 + Kcen) 0, par.getD (2 + Kcen) 0,
    par.getD (3 + Kcen) 0, par.getD (4 + Kcen) 0⟩

/-- The value of `jointPar par Kcen` when every read is within the vector. -/
def jointParOf (par : List ℝ) (Kcen : ℕ) : JointPar :=
  ⟨block par 0 (Kcen + 1), block par (5 + Kcen) (2 * Kcen + 6),
    block par (2 * Kcen + 10) (3 * Kcen + 11),
    par.getD (1 + Kcen) 0, par.getD (2 + Kcen) 0, par.getD (3 + Kcen) 0, par.getD (4 + Kcen) 0,
    par.getD (2 * Kcen + 6) 0, par.getD (2 * Kcen + 7) 0, par.getD (2 * Kcen + 8) 0,
    par.getD (2 * Kcen + 9) 0⟩

/-- The value of `disMatrix dat centers Kcen` when every read is within the tables. -/
def disOf (dat : List Obs) (centers : List (ℝ × ℝ)) (Kcen : ℕ) : List (List ℝ) :=
  (List.range dat.length).map (fun i =>
    (List.range Kcen).map (fun j => dist2 (dat.getD i ⟨0, 0, 0, 0⟩) (centers.getD j (0, 0))))


/-! # Lemmas -/

section Gaussian

open MeasureTheory ProbabilityTheory Set Filter

/-! ## The normal distribution function and its inverse -/

theorem Phi_eq_measure (x : ℝ) : Phi x = ((gaussianReal 0 1) (Iic x)).toReal := by
  unfold Phi
  exact cdf_eq_toReal _ x

theorem Phi_strictMono : StrictMono Phi := by
  intro x y hxy
  rw [Phi_eq_measure, Phi_eq_measure]
  have h1 : (1 : NNReal) ≠ 0 := one_ne_zero
  have hsplit : Iic y = Iic x ∪ Ioc x y := (Iic_union_Ioc_eq_Iic hxy.le).symm
  have hdisj : Disjoint (Iic x) (Ioc x y) := by
    rw [Set.disjoint_left]
    intro a ha hb
    exact absurd ha (not_le.mpr hb.1)
  have hm : (gaussianReal 0 1) (Iic y)
      = (gaussianReal 0 1) (Iic x) + (gaussianReal 0 1) (Ioc x y) := by
    rw [hsplit, measure_union hdisj measurableSet_Ioc]
  have hpos : 0 < (gaussianReal 0 1) (Ioc x y) := by
    rw [pos_iff_ne_zero]
    intro h0
    have hv := gaussianReal_absolutelyContinuous' 0 h1 h0
    rw [Real.volume_Ioc] at hv
    simp at hv
    linarith
  rw [hm, ENNReal.toReal_add (measure_ne_top _ _) (measure_ne_top _ _)]
  have : 0 < ((gaussianReal 0 1) (Ioc x y)).toReal :=
    ENNReal.toReal_pos hpos.ne' (measure_ne_top _ _)
  linarith

theorem Phi_continuous : Continuous Phi := by
  have h1 : (1 : NNReal) ≠ 0 := one_ne_zero
  rw [continuous_iff_continuousAt]
  intro x
  have hmono : Monotone Phi := Phi_strictMono.monotone
  rw [hmono.continuousAt_iff_leftLim_eq_rightLim]
  have hr : Function.rightLim Phi x = Phi x := (cdf (gaussianReal 0 1)).rightLim_eq x
  rw [hr]
  have hs : (cdf (gaussianReal 0 1)).measure {x} = 0 := by
    rw [measure_cdf]
    exact gaussianReal_absolutelyContinuous 0 h1 (by simp)
  rw [StieltjesFunction.measure_singleton] at hs
  have hle : Function.leftLim Phi x ≤ Phi x := hmono.leftLim_le le_rfl
  have : Phi x - Function.leftLim Phi x ≤ 0 := by
    simpa using hs
  linarith

theorem Phi_pos (x : ℝ) : 0 < Phi x :=
  lt_of_le_of_lt (cdf_nonneg _ (x - 1)) (Phi_strictMono (by linarith))

theorem Phi_lt_one (x : ℝ) : Phi x < 1 :=
  lt_of_lt_of_le (Phi_strictMono (by linarith : x < x + 1)) (cdf_le_one _ (x + 1))

theorem Phi_surj {u : ℝ} (h0 : 0 < u) (h1 : u < 1) : ∃ x, Phi x = u := by
  have hbot : Tendsto Phi atBot (nhds 0) := tendsto_cdf_atBot _
  have htop : Tendsto Phi atTop (nhds 1) := tendsto_cdf_atTop _
  obtain ⟨a, ha⟩ := ((hbot.eventually (gt_mem_nhds h0))).exists
  obtain ⟨b, hb⟩ := ((htop.eventually (lt_mem_nhds h1))).exists
  have hab : a ≤ b := by
    by_contra hcon
    have := Phi_strictMono (not_le.mp hcon)
    linarith
  have := intermediate_value_Icc hab Phi_continuous.continuousOn
  obtain ⟨x, -, hx⟩ := this ⟨ha.le, hb.le⟩
  exact ⟨x, hx⟩

theorem Phi_Pinv {u : ℝ} (h0 : 0 < u) (h1 : u < 1) : Phi (gsl_cdf_ugaussian_Pinv u) = u :=
  Classical.epsilon_spec (Phi_surj h0 h1)

theorem Pinv_Phi (x : ℝ) : gsl_cdf_ugaussian_Pinv (Phi x) = x :=
  Phi_strictMono.injective (Phi_Pinv (Phi_pos x) (Phi_lt_one x))

theorem Pinv_lt_Pinv {u v : ℝ} (h0 : 0 < u) (huv : u < v) (h1 : v < 1) :
    gsl_cdf_ugaussian_Pinv u < gsl_cdf_ugaussian_Pinv v := by
  rw [← Phi_strictMono.lt_iff_lt, Phi_Pinv h0 (huv.trans h1), Phi_Pinv (h0.trans huv) h1]
  exact huv

end Gaussian

/-! ## The shifted Poisson sums -/

theorem foldl_add_eq_sum (f : ℕ → ℝ) (l : List ℕ) (a : ℝ) :
    l.foldl (fun out i => out + f i) a = a + (l.map f).sum := by
  induction l generalizing a with
  | nil => simp
  | cons x xs ih => simp [ih, add_assoc]

theorem sum_map_range' (f : ℕ → ℝ) (n : ℕ) :
    ((List.range' 1 n).map f).sum = ∑ i in Finset.range n, f (i + 1) := by
  induction n with
  | zero => simp
  | succ k ih =>
    rw [List.range'_1_concat, List.map_append, List.sum_append, ih, Finset.sum_range_succ]
    simp [add_comm]

theorem FSPoi_eq_sum (x lam : ℝ) :
    FSPoi x lam = ∑ i in Finset.range ⌊x⌋₊, Real.exp (-lam) * lam ^ i / (i.factorial : ℝ) := by
  unfold FSPoi gsl_sf_fact
  rw [foldl_add_eq_sum (fun i => Real.exp (-lam) * lam ^ ((i : ℝ) - 1)
    / ((i - 1).factorial : ℝ)), sum_map_range']
  norm_num

theorem dSPoi_natCast (m : ℕ) (lam : ℝ) :
    dSPoi ((m : ℝ) + 1) lam = Real.exp (-lam) * lam ^ m / (m.factorial : ℝ) := by
  unfold dSPoi gsl_sf_fact
  simp

/-! ## Checked access and loops that do not fault -/

theorem rd_ok {α : Type} (xs : List α) (i : ℕ) (d : α) (h : i < xs.length) :
    rd xs i = .ok (xs.getD i d) := by
  unfold rd
  rw [List.getD_eq_getElem?_getD]
  rw [List.getElem?_eq_getElem h]
  rfl

theorem wr_ok {α : Type} (xs : List α) (i : ℕ) (v : α) (h : i < xs.length) :
    wr xs i v = .ok (xs.set i v) := by
  unfold wr
  rw [if_pos h]

theorem foldlM_ok {σ β : Type} (f : σ → β → Except Fault σ) (g : σ → β → σ) (l : List β)
    (h : ∀ s b, b ∈ l → f s b = .ok (g s b)) (s : σ) :
    l.foldlM f s = .ok (l.foldl g s) := by
  induction l generalizing s with
  | nil => rfl
  | cons x xs ih =>
    rw [List.foldlM_cons, h s x (List.mem_cons_self _ _)]
    exact ih (fun s b hb => h s b (List.mem_cons_of_mem _ hb)) (g s x)

theorem mapM_ok {β γ : Type} (f : β → Except Fault γ) (g : β → γ) (l : List β)
    (h : ∀ b, b ∈ l → f b = .ok (g b)) :
    l.mapM f = .ok (l.map g) := by
  induction l with
  | nil => rfl
  | cons x xs ih =>
    rw [List.mapM_cons, h x (List.mem_cons_self _ _),
      ih (fun b hb => h b (List.mem_cons_of_mem _ hb))]
    rfl

theorem foldl_add_range (t : ℕ → ℝ) (n : ℕ) (s : ℝ) :
    (List.range n).foldl (fun a j => a + t j) s = s + ∑ j in Finset.range n, t j := by
  induction n with
  | zero => simp
  | succ k ih =>
    rw [List.range_succ, List.foldl_append, ih, Finset.sum_range_succ]
    simp [add_assoc]

theorem foldl_add_list {β : Type} (t : β → ℝ) (l : List β) (s : ℝ) :
    l.foldl (fun a b => a + t b) s = s + (l.map t).sum := by
  induction l generalizing s with
  | nil => simp
  | cons x xs ih => simp [ih, add_assoc]

theorem slice_ok (par : List ℝ) (lo hi : ℕ) (h : hi ≤ par.length) :
    slice par lo hi = .ok (block par lo hi) := by
  unfold slice block
  apply mapM_ok
  intro b hb
  apply rd_ok
  rw [List.mem_range'_1] at hb
  omega

theorem block_getD (par : List ℝ) (lo hi j : ℕ) (hj : j < hi - lo) :
    (block par lo hi).getD j 0 = par.getD (lo + j) 0 := by
  unfold block
  rw [List.getD_eq_getElem?_getD, List.getElem?_map, List.getElem?_range' _ _ hj]
  simp

theorem block_length (par : List ℝ) (lo hi : ℕ) : (block par lo hi).length = hi - lo := by
  simp [block]

theorem sum_range_getD {β : Type} (t : β → ℝ) (l : List β) (d : β) :
    ∑ i in Finset.range l.length, t (l.getD i d) = (l.map t).sum := by
  induction l with
  | nil => simp
  | cons x xs ih =>
    rw [List.length_cons, Finset.sum_range_succ', List.map_cons, List.sum_cons, ← ih]
    simp [add_comm]

/-! ## The marginal evaluators in closed form -/

theorem margPar_ok (par : List ℝ) (Kcen : ℕ) (h : Kcen + 5 ≤ par.length) :
    margPar par Kcen = .ok (margParOf par Kcen) := by
  unfold margPar
  rw [slice_ok par 0 (Kcen + 1) (by omega), rd_ok par (1 + Kcen) 0 (by omega),
    rd_ok par (2 + Kcen) 0 (by omega), rd_ok par (3 + Kcen) 0 (by omega),
    rd_ok par (4 + Kcen) 0 (by omega)]
  rfl

theorem kernelLoop_ok (weig1 : List ℝ) (centers : List (ℝ × ℝ)) (Kcen : ℕ) (g : ℝ) (o : Obs)
    (s : ℝ) (hw : Kcen ≤ weig1.length) (hc : Kcen ≤ centers.length) :
    kernelLoop weig1 centers Kcen g o s = .ok (s + ∑ j in Finset.range Kcen,
      weig1.getD j 0 * Real.exp (-g * dist2 o (centers.getD j (0, 0)))) := by
  unfold kernelLoop
  rw [foldlM_ok _ (fun a j => a + weig1.getD j 0
    * Real.exp (-g * dist2 o (centers.getD j (0, 0))))]
  · rw [foldl_add_range]
  · intro a j hj
    rw [List.mem_range] at hj
    rw [rd_ok weig1 j 0 (by omega), rd_ok centers j (0, 0) (by omega)]
    rfl

theorem margLink_ok (par : List ℝ) (centers : List (ℝ × ℝ)) (Kcen : ℕ) (g : ℝ) (o : Obs)
    (hc : Kcen ≤ centers.length) :
    kernelLoop (block par 0 (Kcen + 1)) centers Kcen g o (par.getD Kcen 0)
      = .ok (specField par 0 centers Kcen g o) := by
  rw [kernelLoop_ok _ _ _ _ _ _ (by rw [block_length]; omega) hc]
  unfold specField
  congr 2
  · simp
  · apply Finset.sum_congr rfl
    intro j hj
    rw [Finset.mem_range] at hj
    rw [block_getD par 0 (Kcen + 1) j (by omega)]

theorem pBody_ok (par : List ℝ) (dat : List Obs) (centers : List (ℝ × ℝ)) (Kcen : ℕ) (g : ℝ)
    (nllk : ℝ) (i : ℕ) (hc : Kcen ≤ centers.length) (hi : i < dat.length) :
    pBody (margParOf par Kcen) dat centers Kcen g nllk i
      = .ok (nllk + -Real.log (clampP (pvecOf par centers Kcen g (dat.getD i ⟨0, 0, 0, 0⟩)))) := by
  unfold pBody margParOf
  rw [rd_ok dat i ⟨0, 0, 0, 0⟩ hi]
  simp only [Bind.bind, Except.bind]
  rw [rd_ok _ Kcen 0 (by rw [block_length]; omega), block_getD par 0 (Kcen + 1) Kcen (by omega)]
  simp only [zero_add]
  rw [margLink_ok par centers Kcen g _ hc]
  simp only [Pure.pure, Except.pure, pvecOf, specLink, zero_add, sub_eq_add_neg]
  congr 6 <;> ring_nf

theorem nllk_p_C_ok (par : List ℝ) (dat : List Obs) (centers : List (ℝ × ℝ)) (Kcen : ℕ)
    (g : ℝ) (hp : Kcen + 5 ≤ par.length) (hc : Kcen ≤ centers.length) :
    nllk_p_C par dat centers Kcen g
      = .ok ((dat.map (fun o => -Real.log (clampP (pvecOf par centers Kcen g o)))).sum) := by
  unfold nllk_p_C
  rw [margPar_ok par Kcen hp]
  simp only [Bind.bind, Except.bind]
  rw [foldlM_ok _ (fun a i => a + -Real.log (clampP (pvecOf par centers Kcen g
    (dat.getD i ⟨0, 0, 0, 0⟩))))]
  · rw [foldl_add_range, sum_range_getD (fun o => -Real.log (clampP (pvecOf par centers Kcen g o)))]
    norm_num
  · intro a i hi
    rw [List.mem_range] at hi
    exact pBody_ok par dat centers Kcen g a i hc hi

theorem lambdaBody_ok (par : List ℝ) (dat : List Obs) (centers : List (ℝ × ℝ)) (Kcen : ℕ)
    (g : ℝ) (nllk : ℝ) (i : ℕ) (hc : Kcen ≤ centers.length) (hi : i < dat.length) :
    lambdaBody (margParOf par Kcen) dat centers Kcen g nllk i
      = .ok (nllk + -(-Real.exp (specLink par 0 centers Kcen g (dat.getD i ⟨0, 0, 0, 0⟩))
          + ((dat.getD i ⟨0, 0, 0, 0⟩).y - 1) * specLink par 0 centers Kcen g (dat.getD i ⟨0, 0, 0, 0⟩)
          - Real.log (gsl_sf_fact ⌊(dat.getD i ⟨0, 0, 0, 0⟩).y - 1⌋₊))) := by
  unfold lambdaBody margParOf
  rw [rd_ok dat i ⟨0, 0, 0, 0⟩ hi]
  simp only [Bind.bind, Except.bind]
  rw [rd_ok _ Kcen 0 (by rw [block_length]; omega), block_getD par 0 (Kcen + 1) Kcen (by omega)]
  simp only [zero_add]
  rw [margLink_ok par centers Kcen g _ hc]
  simp only [Pure.pure, Except.pure, specLink, zero_add, sub_eq_add_neg]
  have e1 : 1 + Kcen = Kcen + 1 := by omega
  have e2 : 2 + Kcen = Kcen + 2 := by omega
  have e3 : 3 + Kcen = Kcen + 3 := by omega
  have e4 : 4 + Kcen = Kcen + 4 := by omega
  rw [e1, e2, e3, e4]

theorem nllk_lambda_C_ok (par : List ℝ) (dat : List Obs) (centers : List (ℝ × ℝ)) (Kcen : ℕ)
    (g : ℝ) (hp : Kcen + 5 ≤ par.length) (hc : Kcen ≤ centers.length) :
    nllk_lambda_C par dat centers Kcen g
      = .ok ((dat.map (fun o => -(-Real.exp (specLink par 0 centers Kcen g o)
          + (o.y - 1) * specLink par 0 centers Kcen g o
          - Real.log (gsl_sf_fact ⌊o.y - 1⌋₊)))).sum) := by
  unfold nllk_lambda_C
  rw [margPar_ok par Kcen hp]
  simp only [Bind.bind, Except.bind]
  rw [foldlM_ok _ (fun a i => a + -(-Real.exp (specLink par 0 centers Kcen g (dat.getD i ⟨0, 0, 0, 0⟩))
          + ((dat.getD i ⟨0, 0, 0, 0⟩).y - 1) * specLink par 0 centers Kcen g (dat.getD i ⟨0, 0, 0, 0⟩)
          - Real.log (gsl_sf_fact ⌊(dat.getD i ⟨0, 0, 0, 0⟩).y - 1⌋₊)))]
  · rw [foldl_add_range, sum_range_getD (fun o => -(-Real.exp (specLink par 0 centers Kcen g o)
          + (o.y - 1) * specLink par 0 centers Kcen g o
          - Real.log (gsl_sf_fact ⌊o.y - 1⌋₊)))]
    norm_num
  · intro a i hi
    rw [List.mem_range] at hi
    exact lambdaBody_ok par dat centers Kcen g a i hc hi

theorem log_dSPoi_exp (y loglam : ℝ) :
    Real.log (dSPoi y (Real.exp loglam))
      = -Real.exp loglam + (y - 1) * loglam - Real.log (gsl_sf_fact ⌊y - 1⌋₊) := by
  unfold dSPoi gsl_sf_fact
  have hf : ((⌊y - 1⌋₊.factorial : ℕ) : ℝ) ≠ 0 := by positivity
  rw [Real.log_div (by positivity) hf, Real.log_mul (by positivity) (by positivity),
    Real.log_exp, Real.log_rpow (Real.exp_pos _), Real.log_exp]

theorem clampP_bounds (pvec : Option ℝ) : 0.0000001 ≤ clampP pvec ∧ clampP pvec ≤ 0.9999999 := by
  unfold clampP
  split_ifs with h1 h2 h3
  · norm_num
  · norm_num
  · norm_num
  · exact ⟨not_lt.mp h3, not_lt.mp h2⟩

theorem sum_map_bounds {β : Type} (t : β → ℝ) (a b : ℝ) (l : List β)
    (h : ∀ x ∈ l, a ≤ t x ∧ t x ≤ b) :
    (l.length : ℝ) * a ≤ (l.map t).sum ∧ (l.map t).sum ≤ (l.length : ℝ) * b := by
  induction l with
  | nil => simp
  | cons x xs ih =>
    have hx := h x (List.mem_cons_self _ _)
    have hxs := ih (fun y hy => h y (List.mem_cons_of_mem _ hy))
    simp only [List.length_cons, List.map_cons, List.sum_cons, Nat.cast_add, Nat.cast_one]
    constructor
    · nlinarith [hx.1, hxs.1]
    · nlinarith [hx.2, hxs.2]

theorem FSPoi_natCast (m : ℕ) (lam : ℝ) :
    FSPoi (m : ℝ) lam = ∑ i in Finset.range m, Real.exp (-lam) * lam ^ i / (i.factorial : ℝ) := by
  rw [FSPoi_eq_sum, Nat.floor_natCast]

theorem FSPoi_succ (m : ℕ) (lam : ℝ) :
    FSPoi ((m : ℝ) + 1) lam = FSPoi (m : ℝ) lam + dSPoi ((m : ℝ) + 1) lam := by
  have : ((m : ℝ) + 1) = ((m + 1 : ℕ) : ℝ) := by push_cast; ring
  rw [dSPoi_natCast, this, FSPoi_natCast, FSPoi_natCast, Finset.sum_range_succ]

theorem FSPoi_pos (m : ℕ) (lam : ℝ) (hm : 1 ≤ m) (hlam : 0 < lam) : 0 < FSPoi (m : ℝ) lam := by
  rw [FSPoi_natCast]
  apply Finset.sum_pos
  · intro i _
    positivity
  · exact ⟨0, Finset.mem_range.mpr (by omega)⟩

theorem FSPoi_lt_one (m : ℕ) (lam : ℝ) (hlam : 0 < lam) : FSPoi (m : ℝ) lam < 1 := by
  rw [FSPoi_natCast]
  have h1 : ∑ i in Finset.range m, lam ^ i / (i.factorial : ℝ)
      < ∑ i in Finset.range (m + 1), lam ^ i / (i.factorial : ℝ) := by
    rw [Finset.sum_range_succ]
    have : 0 < lam ^ m / (m.factorial : ℝ) := by positivity
    linarith
  have h2 := Real.sum_le_exp_of_nonneg hlam.le (m + 1)
  have h3 : ∑ i in Finset.range m, Real.exp (-lam) * lam ^ i / (i.factorial : ℝ)
      = Real.exp (-lam) * ∑ i in Finset.range m, lam ^ i / (i.factorial : ℝ) := by
    rw [Finset.mul_sum]
    apply Finset.sum_congr rfl
    intro i _
    ring
  rw [h3]
  have h4 : Real.exp (-lam) * Real.exp lam = 1 := by
    rw [← Real.exp_add]; simp
  calc Real.exp (-lam) * ∑ i in Finset.range m, lam ^ i / (i.factorial : ℝ)
      < Real.exp (-lam) * Real.exp lam :=
        mul_lt_mul_of_pos_left (lt_of_lt_of_le h1 h2) (Real.exp_pos _)
    _ = 1 := h4

theorem C2B1_eq (u v rho : ℝ) :
    C2B1 u v rho = Phi ((gsl_cdf_ugaussian_Pinv u - rho * gsl_cdf_ugaussian_Pinv v)
      / (1 - rho ^ 2) ^ (0.5 : ℝ)) := rfl

theorem C2B1_zero (u v : ℝ) (h0 : 0 < u) (h1 : u < 1) : C2B1 u v 0 = u := by
  rw [C2B1_eq]
  norm_num
  exact Phi_Pinv h0 h1

theorem copula_diff_indep (m : ℕ) (lam v : ℝ) (hm : 1 ≤ m) (hlam : 0 < lam) :
    C2B1 (FSPoi ((m : ℝ) + 1) lam) v 0 - C2B1 (FSPoi (m : ℝ) lam) v 0
      = dSPoi ((m : ℝ) + 1) lam := by
  have e : ((m : ℝ) + 1) = ((m + 1 : ℕ) : ℝ) := by push_cast; ring
  rw [C2B1_zero _ v (FSPoi_pos m lam hm hlam) (FSPoi_lt_one m lam hlam)]
  rw [FSPoi_succ]
  rw [C2B1_zero _ v]
  · ring
  · rw [← FSPoi_succ, e]; exact FSPoi_pos (m + 1) lam (by omega) hlam
  · rw [← FSPoi_succ, e]; exact FSPoi_lt_one (m + 1) lam hlam

theorem rhoOf_gt (s : ℝ) : -1 < rhoOf s := by
  have ht : 0 < Real.exp (2 * s) := Real.exp_pos _
  unfold rhoOf
  rw [lt_div_iff₀ (by linarith)]
  linarith

theorem rhoOf_lt (s : ℝ) : rhoOf s < 1 := by
  have ht : 0 < Real.exp (2 * s) := Real.exp_pos _
  unfold rhoOf
  rw [div_lt_iff₀ (by linarith)]
  linarith

theorem sig_pos (rho : ℝ) (h1 : -1 < rho) (h2 : rho < 1) : 0 < (1 - rho ^ 2) ^ (0.5 : ℝ) := by
  apply Real.rpow_pos_of_pos
  nlinarith

/-! ## The joint evaluator in closed form -/

theorem jointPar_ok (par : List ℝ) (Kcen : ℕ) (h : 3 * Kcen + 11 ≤ par.length) :
    jointPar par Kcen = .ok (jointParOf par Kcen) := by
  unfold jointPar
  rw [slice_ok par 0 (Kcen + 1) (by omega), rd_ok par (1 + Kcen) 0 (by omega),
    rd_ok par (2 + Kcen) 0 (by omega), rd_ok par (3 + Kcen) 0 (by omega),
    rd_ok par (4 + Kcen) 0 (by omega), slice_ok par (5 + Kcen) (2 * Kcen + 6) (by omega),
    rd_ok par (2 * Kcen + 6) 0 (by omega), rd_ok par (2 * Kcen + 7) 0 (by omega),
    rd_ok par (2 * Kcen + 8) 0 (by omega), rd_ok par (2 * Kcen + 9) 0 (by omega),
    slice_ok par (2 * Kcen + 10) (3 * Kcen + 11) (by omega)]
  rfl

theorem disRow_ok (centers : List (ℝ × ℝ)) (Kcen : ℕ) (o : Obs) (hc : Kcen ≤ centers.length) :
    disRow centers Kcen o
      = .ok ((List.range Kcen).map (fun j => dist2 o (centers.getD j (0, 0)))) := by
  unfold disRow
  apply mapM_ok
  intro j hj
  rw [List.mem_range] at hj
  rw [rd_ok centers j (0, 0) (by omega)]
  rfl

theorem disMatrix_ok (dat : List Obs) (centers : List (ℝ × ℝ)) (Kcen : ℕ)
    (hc : Kcen ≤ centers.length) :
    disMatrix dat centers Kcen = .ok (disOf dat centers Kcen) := by
  unfold disMatrix disOf
  apply mapM_ok
  intro i hi
  rw [List.mem_range] at hi
  rw [rd_ok dat i ⟨0, 0, 0, 0⟩ hi]
  exact disRow_ok centers Kcen _ hc

theorem disOf_getD (dat : List Obs) (centers : List (ℝ × ℝ)) (Kcen i j : ℕ)
    (hi : i < dat.length) (hj : j < Kcen) :
    ((disOf dat centers Kcen).getD i List.nil).getD j 0
      = dist2 (dat.getD i ⟨0, 0, 0, 0⟩) (centers.getD j (0, 0)) := by
  unfold disOf
  simp [List.getD_eq_getElem?_getD, List.getElem?_range, hi, hj]

theorem fieldLoop_ok (par : List ℝ) (dat : List Obs) (centers : List (ℝ × ℝ))
    (Kcen : ℕ) (g : ℝ) (i lo hi : ℕ) (s : ℝ) (hi' : i < dat.length) (hlen : Kcen ≤ hi - lo) :
    fieldLoop (block par lo hi) (disOf dat centers Kcen) Kcen g i s
      = .ok (s + ∑ j in Finset.range Kcen, par.getD (lo + j) 0
          * Real.exp (-g * dist2 (dat.getD i ⟨0, 0, 0, 0⟩) (centers.getD j (0, 0)))) := by
  unfold fieldLoop
  rw [foldlM_ok _ (fun a j => a + par.getD (lo + j) 0
    * Real.exp (-g * dist2 (dat.getD i ⟨0, 0, 0, 0⟩) (centers.getD j (0, 0))))]
  · rw [foldl_add_range]
  · intro a j hj
    rw [List.mem_range] at hj
    rw [rd_ok (block par lo hi) j 0 (by rw [block_length]; omega),
      rd_ok (disOf dat centers Kcen) i List.nil (by simp [disOf]; exact hi')]
    simp only [Bind.bind, Except.bind]
    rw [rd_ok _ j 0 (by
      unfold disOf
      rw [List.getD_eq_getElem?_getD, List.getElem?_map, List.getElem?_range hi']
      simp; exact hj)]
    simp only [Pure.pure, Except.pure]
    rw [disOf_getD dat centers Kcen i j hi' hj, block_getD par lo hi j (by omega)]

theorem obsTerm_ok (par : List ℝ) (dat : List Obs) (centers : List (ℝ × ℝ)) (xl : List ℝ)
    (Kcen : ℕ) (g : ℝ) (k i : ℕ) (hi : i < dat.length)
    (hk : (dat.getD i ⟨0, 0, 0, 0⟩).y ≠ 0 → k < xl.length) :
    obsTerm (jointParOf par Kcen) dat (disOf dat centers Kcen) xl Kcen g k i
      = .ok (logTerm par centers Kcen g (dat.getD i ⟨0, 0, 0, 0⟩) (xl.getD k 0)) := by
  have h0 := rd_ok dat i ⟨0, 0, 0, 0⟩ hi
  have h1 : rd (block par 0 (Kcen + 1)) Kcen = .ok (par.getD (0 + Kcen) 0) := by
    rw [rd_ok _ Kcen 0 (by rw [block_length]; omega), block_getD par 0 (Kcen + 1) Kcen (by omega)]
  have h2 : rd (block par (5 + Kcen) (2 * Kcen + 6)) Kcen
      = .ok (par.getD (Kcen + 5 + Kcen) 0) := by
    rw [rd_ok _ Kcen 0 (by rw [block_length]; omega),
      block_getD par (5 + Kcen) (2 * Kcen + 6) Kcen (by omega)]
    congr 2; omega
  have h3 : rd (block par (2 * Kcen + 10) (3 * Kcen + 11)) Kcen
      = .ok (par.getD (2 * Kcen + 10 + Kcen) 0) := by
    rw [rd_ok _ Kcen 0 (by rw [block_length]; omega),
      block_getD par (2 * Kcen + 10) (3 * Kcen + 11) Kcen (by omega)]
  have g1 := fun s => fieldLoop_ok par dat centers Kcen g i 0 (Kcen + 1) s hi (by omega)
  have g2 := fun s => fieldLoop_ok par dat centers Kcen g i (5 + Kcen) (2 * Kcen + 6) s hi
    (by omega)
  have g3 := fun s => fieldLoop_ok par dat centers Kcen g i (2 * Kcen + 10) (3 * Kcen + 11) s hi
    (by omega)
  have e1 : 1 + Kcen = 0 + Kcen + 1 := by omega
  have e2 : 2 + Kcen = 0 + Kcen + 2 := by omega
  have e3 : 3 + Kcen = 0 + Kcen + 3 := by omega
  have e4 : 4 + Kcen = 0 + Kcen + 4 := by omega
  have f1 : 2 * Kcen + 6 = Kcen + 5 + Kcen + 1 := by omega
  have f2 : 2 * Kcen + 7 = Kcen + 5 + Kcen + 2 := by omega
  have f3 : 2 * Kcen + 8 = Kcen + 5 + Kcen + 3 := by omega
  have f4 : 2 * Kcen + 9 = Kcen + 5 + Kcen + 4 := by omega
  have f5 : ∀ j, 5 + Kcen + j = Kcen + 5 + j := by intro j; omega
  unfold obsTerm jointParOf
  simp only [Bind.bind, Except.bind, h0, h1, h2, h3, g1, g2, g3]
  by_cases hy : (dat.getD i ⟨0, 0, 0, 0⟩).y = 0
  · simp only [hy, if_true, Pure.pure, Except.pure, logTerm, specLink, specField]
    rw [e1, e2, e3, e4]
    norm_num
  · have hk' := rd_ok xl k 0 (hk hy)
    simp only [hy, if_false, hk', Pure.pure, Except.pure, logTerm, specLink, specField]
    rw [e1, e2, e3, e4, f1, f2, f3, f4]
    simp only [f5]
    norm_num

theorem addFinite_eq (a : ℝ) (t : Option ℝ) : addFinite a t = a + t.getD 0 := by
  unfold addFinite R_finite
  cases t <;> simp

theorem sum_getD_eq_filterMap {β : Type} (f : β → Option ℝ) (l : List β) :
    (l.map (fun o => (f o).getD 0)).sum = (l.filterMap f).sum := by
  induction l with
  | nil => simp
  | cons x xs ih =>
    rw [List.map_cons, List.sum_cons, ih, List.filterMap_cons]
    cases h : f x <;> simp

theorem nodeSum_ok (par : List ℝ) (dat : List Obs) (centers : List (ℝ × ℝ)) (xl : List ℝ)
    (Kcen : ℕ) (g : ℝ) (k : ℕ) (hk : k < xl.length) :
    nodeSum (jointParOf par Kcen) dat (disOf dat centers Kcen) xl Kcen g k
      = .ok ((dat.filterMap (fun o => logTerm par centers Kcen g o (xl.getD k 0))).sum) := by
  unfold nodeSum
  rw [foldlM_ok _ (fun a i => a + (logTerm par centers Kcen g (dat.getD i ⟨0, 0, 0, 0⟩)
    (xl.getD k 0)).getD 0)]
  · rw [foldl_add_range, sum_range_getD (fun o => (logTerm par centers Kcen g o
      (xl.getD k 0)).getD 0), sum_getD_eq_filterMap]
    norm_num
  · intro a i hi
    rw [List.mem_range] at hi
    rw [obsTerm_ok par dat centers xl Kcen g k i hi (fun _ => hk)]
    simp only [Bind.bind, Except.bind, Pure.pure, Except.pure, addFinite_eq]

theorem nodeLoop_ok (par : List ℝ) (dat : List Obs) (centers : List (ℝ × ℝ)) (xl wl : List ℝ)
    (Kcen : ℕ) (g : ℝ) (nq : ℕ) (hx : nq ≤ xl.length) (hw : nq ≤ wl.length) :
    nodeLoop (jointParOf par Kcen) dat (disOf dat centers Kcen) xl wl Kcen g nq
      = .ok (jointValue par dat centers Kcen g nq (xl, wl)) := by
  unfold nodeLoop jointValue
  rw [foldlM_ok _ (fun a k => a + Real.exp ((dat.filterMap
    (fun o => logTerm par centers Kcen g o (xl.getD k 0))).sum) * wl.getD k 0)]
  · rw [foldl_add_range]
    norm_num
  · intro a k hk
    rw [List.mem_range] at hk
    rw [nodeSum_ok par dat centers xl Kcen g k (by omega), rd_ok wl k 0 (by omega)]
    rfl

theorem wr_length {α : Type} (xs ys : List α) (i : ℕ) (v : α) (h : wr xs i v = .ok ys) :
    ys.length = xs.length := by
  unfold wr at h
  split_ifs at h
  cases h
  simp

theorem foldlM_inv {σ β : Type} (P : σ → Prop) (f : σ → β → Except Fault σ) (l : List β)
    (hf : ∀ s b s', f s b = .ok s' → P s → P s') (s s' : σ)
    (h : l.foldlM f s = .ok s') (hs : P s) : P s' := by
  induction l generalizing s with
  | nil =>
    cases h
    exact hs
  | cons x xs ih =>
    rw [List.foldlM_cons] at h
    cases hx : f s x with
    | error e =>
      rw [hx] at h
      cases h
    | ok t =>
      rw [hx] at h
      exact ih t h (hf s x t hx hs)

theorem gaulegBody_length (fuel n : ℕ) (xm xl : ℝ) (s s' : List ℝ × List ℝ) (i : ℕ)
    (h : gaulegBody fuel n xm xl s i = .ok s') :
    s'.1.length = s.1.length ∧ s'.2.length = s.2.length := by
  unfold gaulegBody at h
  simp only [Bind.bind, Except.bind] at h
  split at h
  · cases h
  · rename_i v hv
    obtain ⟨z, pp⟩ := v
    simp only at h
    split at h
    · cases h
    · rename_i xq1 h1
      split at h
      · cases h
      · rename_i xq2 h2
        split_ifs at h
        split at h
        · cases h
        · rename_i wq1 h3
          split at h
          · cases h
          · rename_i v4 h4
            split at h
            · cases h
            · rename_i wq2 h5
              cases h
              have l1 := wr_length _ _ _ _ h1
              have l2 := wr_length _ _ _ _ h2
              have l3 := wr_length _ _ _ _ h3
              have l5 := wr_length _ _ _ _ h5
              simp only
              constructor
              · rw [l2, l1]
              · rw [l5, l3]

theorem gauleg_length (fuel nq : ℕ) (xq wq : List ℝ) (q : List ℝ × List ℝ)
    (h : gauleg fuel nq xq wq = .ok q) :
    q.1.length = xq.length ∧ q.2.length = wq.length := by
  unfold gauleg at h
  exact foldlM_inv (fun s => s.1.length = xq.length ∧ s.2.length = wq.length) _ _
    (fun s b s' hb hs => by
      have := gaulegBody_length _ _ _ _ s s' b hb
      exact ⟨this.1.trans hs.1, this.2.trans hs.2⟩) (xq, wq) q h ⟨rfl, rfl⟩

theorem nllk_all_C_eq (fuel : ℕ) (par : List ℝ) (dat : List Obs) (centers : List (ℝ × ℝ))
    (Kcen : ℕ) (g : ℝ) (nq : ℕ) (hp : 3 * Kcen + 11 ≤ par.length)
    (hc : Kcen ≤ centers.length) :
    nllk_all_C fuel par dat centers Kcen g nq
      = (gauleg fuel nq (List.replicate nq 0) (List.replicate nq 0)).map
          (jointValue par dat centers Kcen g nq) := by
  unfold nllk_all_C
  cases h : gauleg fuel nq (List.replicate nq 0) (List.replicate nq 0) with
  | error e => rfl
  | ok q =>
    have hl := gauleg_length fuel nq _ _ q h
    simp only [List.length_replicate] at hl
    obtain ⟨xl, wl⟩ := q
    simp only [Bind.bind, Except.bind, Except.map]
    rw [jointPar_ok par Kcen hp, disMatrix_ok dat centers Kcen hc]
    simp only
    rw [nodeLoop_ok par dat centers xl wl Kcen g nq (by rw [hl.1]) (by rw [hl.2])]

/-! ## `gauleg` at order one -/

theorem legendre_one (z : ℝ) : legendre 1 z = (z, 1) := by
  unfold legendre
  simp [legendreStep]
  norm_num

theorem cos_start_one :
    |Real.cos (3.14159265358979323846 * (((1 : ℕ) : ℝ) - 0.25) / (((1 : ℕ) : ℝ) + 0.5))|
      ≤ 1e-20 := by
  have h1 := Real.pi_gt_d20
  have h2 := Real.pi_lt_d20
  have e : (3.14159265358979323846 * (((1 : ℕ) : ℝ) - 0.25) / (((1 : ℕ) : ℝ) + 0.5) : ℝ)
      = Real.pi / 2 - (Real.pi / 2 - 3.14159265358979323846 / 2) := by
    push_cast
    ring
  rw [e, Real.cos_pi_div_two_sub]
  refine le_trans Real.abs_sin_le_abs ?_
  rw [abs_le]
  constructor <;> norm_num <;> linarith

theorem newton_one (fuel : ℕ) (z : ℝ) (hz : |z| ≤ 1e-20) :
    newton 1 (fuel + 1) z = .ok (0, 1) := by
  have hz' := abs_le.mp hz
  have hsq : z * z - 1.0 ≠ 0 := by
    norm_num
    nlinarith [hz'.1, hz'.2]
  have hsq' : z * z - 1 ≠ 0 := by
    norm_num at hsq
    exact hsq
  unfold newton
  simp only [legendre_one]
  rw [if_neg hsq]
  have hpp : ((1 : ℕ) : ℝ) * (z * z - 1) / (z * z - 1.0) = 1 := by
    norm_num
    exact div_self hsq'
  rw [hpp]
  rw [if_neg one_ne_zero]
  have hz0 : z - z / 1 = 0 := by ring
  rw [hz0]
  have : ¬ (|0 - z| > EPS) := by
    unfold EPS
    rw [zero_sub, abs_neg, not_lt]
    refine le_trans hz ?_
    norm_num
  rw [if_neg this]

theorem gauleg_one (fuel : ℕ) :
    gauleg (fuel + 1) 1 (List.replicate 1 0) (List.replicate 1 0) = .ok ([0.5], [1]) := by
  unfold gauleg
  have hr : List.range' 1 ((1 + 1) / 2) = [1] := by decide
  simp only [hr, List.foldlM_cons, List.foldlM_nil]
  unfold gaulegBody
  rw [newton_one fuel _ cos_start_one]
  simp [Bind.bind, Except.bind, wr, rd, Pure.pure, Except.pure]
  norm_num

/-! ## `gauleg` at order two -/

theorem legendre_two (z : ℝ) : legendre 2 z = ((3 * z * z - 1) / 2, z) := by
  unfold legendre
  have hr : List.range' 1 2 = [1, 2] := by decide
  simp [hr, legendreStep]
  norm_num

theorem newton_two_step (fuel : ℕ) (z : ℝ) (h0 : 0 < z) (h1 : z < 1) :
    newton 2 (fuel + 1) z
      = if |(z - (3 * z * z - 1) / 2 / (3 * z)) - z| > EPS
        then newton 2 fuel (z - (3 * z * z - 1) / 2 / (3 * z))
        else .ok (z - (3 * z * z - 1) / 2 / (3 * z), 3 * z) := by
  have hsq' : z * z - 1 ≠ 0 := by nlinarith
  have hsq : z * z - 1.0 ≠ 0 := by
    norm_num
    exact hsq'
  have hpp : ((2 : ℕ) : ℝ) * (z * ((3 * z * z - 1) / 2) - z) / (z * z - 1.0) = 3 * z := by
    norm_num
    field_simp
    ring
  have hne : 3 * z ≠ 0 := by positivity
  rw [newton]
  simp only [legendre_two]
  rw [if_neg hsq, hpp, if_neg hne]

theorem cos_start_two :
    0.58 < Real.cos (3.14159265358979323846 * (((1 : ℕ) : ℝ) - 0.25) / (((2 : ℕ) : ℝ) + 0.5))
      ∧ Real.cos (3.14159265358979323846 * (((1 : ℕ) : ℝ) - 0.25) / (((2 : ℕ) : ℝ) + 0.5)) < 1 := by
  have e : (3.14159265358979323846 * (((1 : ℕ) : ℝ) - 0.25) / (((2 : ℕ) : ℝ) + 0.5) : ℝ)
      = 2 * (0.15 * 3.14159265358979323846) := by
    push_cast
    norm_num
  rw [e, Real.cos_two_mul, Real.cos_sq']
  have hx0 : (0 : ℝ) < 0.15 * 3.14159265358979323846 := by norm_num
  have hx1 : |(0.15 * 3.14159265358979323846 : ℝ)| ≤ 1 := by
    rw [abs_of_pos hx0]; norm_num
  have hpi : (0.15 * 3.14159265358979323846 : ℝ) < Real.pi := by
    have := Real.pi_gt_three
    norm_num
    linarith
  have hs0 := Real.sin_pos_of_pos_of_lt_pi hx0 hpi
  have hb := (abs_le.mp (Real.sin_bound hx1)).2
  rw [abs_of_pos hx0] at hb
  have hB : Real.sin (0.15 * 3.14159265358979323846) ≤ 0.4564 := by
    have : (0.15 * 3.14159265358979323846 : ℝ) - (0.15 * 3.14159265358979323846) ^ 3 / 6
        + (0.15 * 3.14159265358979323846) ^ 4 * (5 / 96) ≤ 0.4564 := by norm_num
    linarith
  constructor
  · nlinarith
  · nlinarith

theorem logTerm_zero_count (par : List ℝ) (centers : List (ℝ × ℝ)) (Kcen : ℕ) (g : ℝ)
    (o : Obs) (xk : ℝ) (hy : o.y = 0) :
    logTerm par centers Kcen g o xk
      = some (-Real.log (1 + Real.exp (specLink par 0 centers Kcen g o))) := by
  have hpos : 0 < 1 + Real.exp (specLink par 0 centers Kcen g o) := by positivity
  unfold logTerm
  simp only [hy, if_true, flog, if_pos hpos, fneg, fadd, Option.map_some', zero_add]

theorem sum_getD_eq_sum (l : List ℝ) :
    ∑ k in Finset.range l.length, l.getD k 0 = l.sum := by
  have := sum_range_getD (fun x : ℝ => x) l 0
  simpa using this

theorem jointValue_single_zero (par : List ℝ) (centers : List (ℝ × ℝ)) (Kcen : ℕ) (g : ℝ)
    (o : Obs) (nq : ℕ) (q : List ℝ × List ℝ) (hy : o.y = 0) (hq : q.2.length = nq) :
    jointValue par [o] centers Kcen g nq q
      = q.2.sum / (1 + Real.exp (specLink par 0 centers Kcen g o)) := by
  have hpos : 0 < 1 + Real.exp (specLink par 0 centers Kcen g o) := by positivity
  unfold jointValue
  simp only [List.filterMap_cons, List.filterMap_nil, logTerm_zero_count _ _ _ _ _ _ hy,
    List.sum_cons, List.sum_nil, add_zero, Real.exp_neg, Real.exp_log hpos]
  rw [← Finset.mul_sum, ← hq, sum_getD_eq_sum]
  field_simp

theorem nllk_all_C_single_zero (fuel nq Kcen : ℕ) (g : ℝ) (centers : List (ℝ × ℝ))
    (par : List ℝ) (o : Obs) (hp : 3 * Kcen + 11 ≤ par.length) (hc : Kcen ≤ centers.length)
    (hy : o.y = 0) :
    nllk_all_C fuel par [o] centers Kcen g nq
        = (gauleg fuel nq (List.replicate nq 0) (List.replicate nq 0)).map
            (fun q => q.2.sum / (1 + Real.exp (specLink par 0 centers Kcen g o))) := by
  rw [nllk_all_C_eq fuel par [o] centers Kcen g nq hp hc]
  cases h : gauleg fuel nq (List.replicate nq 0) (List.replicate nq 0) with
  | error e => rfl
  | ok q =>
    have hl := (gauleg_length fuel nq _ _ q h).2
    rw [List.length_replicate] at hl
    simp only [Except.map]
    rw [jointValue_single_zero par centers Kcen g o nq q hy hl]

theorem nllk_all_C_single_zero_one (fuel Kcen : ℕ) (g : ℝ) (centers : List (ℝ × ℝ))
    (par : List ℝ) (o : Obs) (hp : 3 * Kcen + 11 ≤ par.length) (hc : Kcen ≤ centers.length)
    (hy : o.y = 0) :
    nllk_all_C (fuel + 1) par [o] centers Kcen g 1
        = .ok (1 / (1 + Real.exp (specLink par 0 centers Kcen g o))) := by
  rw [nllk_all_C_single_zero (fuel + 1) 1 Kcen g centers par o hp hc hy, gauleg_one fuel]
  simp [Except.map]

theorem filterMap_filter_finite {β : Type} (f : β → Option ℝ) (keep : β → Bool) (l : List β)
    (h : ∀ o ∈ l, keep o = R_finite (f o)) :
    (l.filter keep).filterMap f = l.filterMap f := by
  induction l with
  | nil => rfl
  | cons x xs ih =>
    have hx := h x (List.mem_cons_self _ _)
    have ih' := ih (fun o ho => h o (List.mem_cons_of_mem _ ho))
    unfold R_finite at hx
    cases hf : f x with
    | none =>
      rw [hf] at hx
      simp only [Option.isSome_none] at hx
      rw [List.filter_cons_of_neg (by simp [hx]), List.filterMap_cons_none hf, ih']
    | some v =>
      rw [hf] at hx
      simp only [Option.isSome_some] at hx
      rw [List.filter_cons_of_pos hx, List.filterMap_cons_some hf, List.filterMap_cons_some hf,
        ih']

theorem logTerm_count_neg_one (par : List ℝ) (centers : List (ℝ × ℝ)) (Kcen : ℕ) (g : ℝ)
    (o : Obs) (xk : ℝ) (hy : o.y = -1) :
    logTerm par centers Kcen g o xk = none := by
  have h1 : ∀ lam, FSPoi (o.y + 1) lam = FSPoi o.y lam := by
    intro lam
    have f0 : ⌊(-1 : ℝ) + 1⌋₊ = 0 := by norm_num
    have f1 : ⌊(-1 : ℝ)⌋₊ = 0 := Nat.floor_of_nonpos (by norm_num)
    rw [FSPoi_eq_sum, FSPoi_eq_sum, hy, f0, f1]
  have hne : o.y ≠ 0 := by rw [hy]; norm_num
  unfold logTerm
  simp only [hne, if_false, h1, sub_self, flog, lt_irrefl, fadd]
  split <;> simp_all

/-! ## More fuel does not change a result -/

theorem newton_fuel_succ (n : ℕ) : ∀ (fuel : ℕ) (z : ℝ) (r : ℝ × ℝ),
    newton n fuel z = .ok r → newton n (fuel + 1) z = .ok r := by
  intro fuel
  induction fuel with
  | zero =>
    intro z r h
    rw [newton] at h
    cases h
  | succ f ih =>
    intro z r h
    rw [newton] at h ⊢
    by_cases h1 : z * z - 1.0 = 0
    · rw [if_pos h1] at h
      cases h
    · rw [if_neg h1] at h ⊢
      simp only at h ⊢
      by_cases h2 : (n : ℝ) * (z * (legendre n z).1 - (legendre n z).2) / (z * z - 1.0) = 0
      · rw [if_pos h2] at h
        cases h
      · rw [if_neg h2] at h ⊢
        by_cases h3 : |z - (legendre n z).1 / ((n : ℝ) * (z * (legendre n z).1
            - (legendre n z).2) / (z * z - 1.0)) - z| > EPS
        · rw [if_pos h3] at h ⊢
          exact ih _ _ h
        · rw [if_neg h3] at h ⊢
          exact h

theorem newton_fuel_le (n : ℕ) (fuel fuel' : ℕ) (z : ℝ) (r : ℝ × ℝ) (hle : fuel ≤ fuel')
    (h : newton n fuel z = .ok r) : newton n fuel' z = .ok r := by
  induction hle with
  | refl => exact h
  | step _ ih => exact newton_fuel_succ n _ z r ih

theorem gaulegBody_fuel_le (fuel fuel' n : ℕ) (xm xl : ℝ) (s s' : List ℝ × List ℝ) (i : ℕ)
    (hle : fuel ≤ fuel') (h : gaulegBody fuel n xm xl s i = .ok s') :
    gaulegBody fuel' n xm xl s i = .ok s' := by
  unfold gaulegBody at h ⊢
  cases hn : newton n fuel (Real.cos (3.14159265358979323846 * ((i : ℝ) - 0.25)
      / ((n : ℝ) + 0.5))) with
  | error e =>
    rw [hn] at h
    cases h
  | ok r =>
    rw [newton_fuel_le n fuel fuel' _ r hle hn]
    rw [hn] at h
    exact h

theorem foldlM_ok_imp {σ β : Type} (f f' : σ → β → Except Fault σ) (l : List β)
    (hf : ∀ s b s', f s b = .ok s' → f' s b = .ok s') (s r : σ)
    (h : l.foldlM f s = .ok r) : l.foldlM f' s = .ok r := by
  induction l generalizing s with
  | nil => exact h
  | cons x xs ih =>
    rw [List.foldlM_cons] at h ⊢
    cases hx : f s x with
    | error e =>
      rw [hx] at h
      cases h
    | ok t =>
      rw [hx] at h
      rw [hf s x t hx]
      exact ih t h

theorem gauleg_fuel_le (fuel fuel' nq : ℕ) (xq wq : List ℝ) (q : List ℝ × List ℝ)
    (hle : fuel ≤ fuel') (h : gauleg fuel nq xq wq = .ok q) :
    gauleg fuel' nq xq wq = .ok q := by
  unfold gauleg at h ⊢
  exact foldlM_ok_imp _ _ _ (fun s b s' hb => gaulegBody_fuel_le fuel fuel' _ _ _ s s' b hle hb)
    _ _ h

theorem newton_two_stop (k : ℕ) : ∀ z : ℝ, 0 < z → z < 1 → 1 < 3 * z * z →
    (3 * z * z - 1) / (6 * z) ≤ 2 ^ k * EPS →
    ∃ z1 : ℝ, 0 < z1 ∧ z1 < 1 ∧ 1 < 3 * z1 * z1 ∧ (3 * z1 * z1 - 1) / (6 * z1) ≤ EPS ∧
      newton 2 (k + 1) z = .ok (z1 - (3 * z1 * z1 - 1) / (6 * z1), 3 * z1) := by
  induction k with
  | zero =>
    intro z h0 h1 h3 hs
    refine ⟨z, h0, h1, h3, by simpa using hs, ?_⟩
    rw [newton_two_step 0 z h0 h1]
    have e : z - (3 * z * z - 1) / 2 / (3 * z) - z = -((3 * z * z - 1) / (6 * z)) := by
      field_simp
      ring
    have hpos : 0 < (3 * z * z - 1) / (6 * z) := by
      apply div_pos <;> linarith
    rw [e, abs_neg, abs_of_pos hpos, if_neg (by simpa using hs)]
    congr 2
    field_simp
    ring
  | succ k ih =>
    intro z h0 h1 h3 hs
    have e : z - (3 * z * z - 1) / 2 / (3 * z) - z = -((3 * z * z - 1) / (6 * z)) := by
      field_simp
      ring
    have e' : z - (3 * z * z - 1) / 2 / (3 * z) = z - (3 * z * z - 1) / (6 * z) := by
      field_simp
      ring
    have hpos : 0 < (3 * z * z - 1) / (6 * z) := by
      apply div_pos <;> linarith
    rw [newton_two_step (k + 1) z h0 h1, e, abs_neg, abs_of_pos hpos]
    by_cases hstop : (3 * z * z - 1) / (6 * z) > EPS
    · rw [if_pos hstop, e']
      have hN : z - (3 * z * z - 1) / (6 * z) = (3 * z * z + 1) / (6 * z) := by
        field_simp
        ring
      have hNpos : 0 < z - (3 * z * z - 1) / (6 * z) := by
        rw [hN]
        positivity
      have hNlt : z - (3 * z * z - 1) / (6 * z) < 1 := by linarith
      have hsq : 3 * (z - (3 * z * z - 1) / (6 * z)) * (z - (3 * z * z - 1) / (6 * z)) - 1
          = 3 * ((3 * z * z - 1) / (6 * z)) ^ 2 := by
        field_simp
        ring
      have hN3 : 1 < 3 * (z - (3 * z * z - 1) / (6 * z)) * (z - (3 * z * z - 1) / (6 * z)) := by
        have : 0 < 3 * ((3 * z * z - 1) / (6 * z)) ^ 2 := by positivity
        linarith
      have hle : (3 * z * z - 1) / (6 * z) ≤ z - (3 * z * z - 1) / (6 * z) := by
        rw [hN]
        apply div_le_div_of_nonneg_right _ (by positivity)
        linarith
      have hs' : (3 * (z - (3 * z * z - 1) / (6 * z)) * (z - (3 * z * z - 1) / (6 * z)) - 1)
          / (6 * (z - (3 * z * z - 1) / (6 * z))) ≤ 2 ^ k * EPS := by
        rw [hsq, div_le_iff₀ (by positivity)]
        have hE : 0 < EPS := by unfold EPS; norm_num
        have hk : 0 < (2 : ℝ) ^ k := by positivity
        have h2 : (3 * z * z - 1) / (6 * z) ≤ 2 * (2 ^ k * EPS) := by
          rw [pow_succ] at hs
          linarith
        nlinarith [mul_nonneg hpos.le hpos.le, mul_pos hk hE]
      exact ih _ hNpos hNlt hN3 hs'
    · rw [if_neg hstop]
      refine ⟨z, h0, h1, h3, not_lt.mp hstop, ?_⟩
      rw [e']

/-- The second weight denominator of order two in terms of the last-but-one iterate. -/
theorem weight_two_denominator (z1 : ℝ) (hz0 : 0 < z1) :
    (1 - (z1 - (3 * z1 * z1 - 1) / (6 * z1)) ^ 2) * (3 * z1) ^ 2
      = 2 + 6 * (z1 ^ 2 - 1 / 3) - 9 * (z1 ^ 2 - 1 / 3) ^ 2 / 4 := by
  field_simp
  ring

theorem gauleg_two_stop (fuel : ℕ) (hf : 36 ≤ fuel) :
    ∃ z1 : ℝ, 0 < z1 ∧ z1 < 1 ∧ 1 < 3 * z1 * z1 ∧ (3 * z1 * z1 - 1) / (6 * z1) ≤ EPS ∧
    gauleg fuel 2 (List.replicate 2 0) (List.replicate 2 0)
      = .ok ([0.5 - 0.5 * (z1 - (3 * z1 * z1 - 1) / (6 * z1)),
              0.5 + 0.5 * (z1 - (3 * z1 * z1 - 1) / (6 * z1))],
             [1 / ((1 - (z1 - (3 * z1 * z1 - 1) / (6 * z1)) ^ 2) * (3 * z1) ^ 2),
              1 / ((1 - (z1 - (3 * z1 * z1 - 1) / (6 * z1)) ^ 2) * (3 * z1) ^ 2)]) := by
  obtain ⟨hlo, hhi⟩ := cos_start_two
  have h0 : 0 < Real.cos (3.14159265358979323846 * (((1 : ℕ) : ℝ) - 0.25)
      / (((2 : ℕ) : ℝ) + 0.5)) := by linarith
  have h3 : 1 < 3 * Real.cos (3.14159265358979323846 * (((1 : ℕ) : ℝ) - 0.25)
      / (((2 : ℕ) : ℝ) + 0.5)) * Real.cos (3.14159265358979323846 * (((1 : ℕ) : ℝ) - 0.25)
      / (((2 : ℕ) : ℝ) + 0.5)) := by nlinarith
  have hs : (3 * Real.cos (3.14159265358979323846 * (((1 : ℕ) : ℝ) - 0.25)
      / (((2 : ℕ) : ℝ) + 0.5)) * Real.cos (3.14159265358979323846 * (((1 : ℕ) : ℝ) - 0.25)
      / (((2 : ℕ) : ℝ) + 0.5)) - 1) / (6 * Real.cos (3.14159265358979323846
      * (((1 : ℕ) : ℝ) - 0.25) / (((2 : ℕ) : ℝ) + 0.5))) ≤ 2 ^ 35 * EPS := by
    rw [div_le_iff₀ (by positivity)]
    unfold EPS
    norm_num
    nlinarith
  obtain ⟨z1, hz0, hz1, hz3, hstop, hn⟩ := newton_two_stop 35 _ h0 hhi h3 hs
  refine ⟨z1, hz0, hz1, hz3, hstop, ?_⟩
  apply gauleg_fuel_le 36 fuel 2 _ _ _ hf
  have hNpos : 0 < z1 - (3 * z1 * z1 - 1) / (6 * z1) := by
    have : z1 - (3 * z1 * z1 - 1) / (6 * z1) = (3 * z1 * z1 + 1) / (6 * z1) := by
      field_simp
      ring
    rw [this]
    positivity
  have hNlt : z1 - (3 * z1 * z1 - 1) / (6 * z1) < 1 := by
    have : 0 < (3 * z1 * z1 - 1) / (6 * z1) := by
      apply div_pos <;> linarith
    linarith
  have hden : (1.0 - (z1 - (3 * z1 * z1 - 1) / (6 * z1)) * (z1 - (3 * z1 * z1 - 1) / (6 * z1)))
      * (3 * z1) * (3 * z1) ≠ 0 := by
    have h1 : (1.0 : ℝ) - (z1 - (3 * z1 * z1 - 1) / (6 * z1))
        * (z1 - (3 * z1 * z1 - 1) / (6 * z1)) ≠ 0 := by
      have : (1.0 : ℝ) = 1 := by norm_num
      rw [this]
      nlinarith
    exact mul_ne_zero (mul_ne_zero h1 (by positivity)) (by positivity)
  unfold gauleg
  have hr : List.range' 1 ((2 + 1) / 2) = [1] := by decide
  simp only [hr, List.foldlM_cons, List.foldlM_nil]
  unfold gaulegBody
  rw [hn]
  simp only [Bind.bind, Except.bind, wr, rd, Pure.pure, Except.pure, if_neg hden]
  simp
  norm_num
  ring

/-- Order two: the nodes lie strictly inside `(0,1)`, the two weights are positive, and
their sum is below `1` by at most `1e-9`. -/
theorem gauleg_two_quality (fuel : ℕ) (hf : 36 ≤ fuel) :
    ∃ x0 x1 W : ℝ, gauleg fuel 2 (List.replicate 2 0) (List.replicate 2 0)
        = .ok ([x0, x1], [W, W])
      ∧ 0 < x0 ∧ x0 < 1 ∧ 0 < x1 ∧ x1 < 1 ∧ 0 < W
      ∧ W + W < 1 ∧ 1 - 1e-9 ≤ W + W := by
  obtain ⟨z1, hz0, hz1, hz3, hstop, hg⟩ := gauleg_two_stop fuel hf
  refine ⟨_, _, _, hg, ?_⟩
  have hspos : 0 < (3 * z1 * z1 - 1) / (6 * z1) := by
    apply div_pos <;> linarith
  have hN : z1 - (3 * z1 * z1 - 1) / (6 * z1) = (3 * z1 * z1 + 1) / (6 * z1) := by
    field_simp
    ring
  have hNpos : 0 < z1 - (3 * z1 * z1 - 1) / (6 * z1) := by
    rw [hN]
    positivity
  have hNlt : z1 - (3 * z1 * z1 - 1) / (6 * z1) < 1 := by linarith
  have ha0 : 0 < z1 ^ 2 - 1 / 3 := by nlinarith
  have ha1 : z1 ^ 2 - 1 / 3 ≤ 2 * EPS := by
    have h6 : 3 * z1 * z1 - 1 ≤ EPS * (6 * z1) := by
      rwa [div_le_iff₀ (by positivity)] at hstop
    have hE : 0 < EPS := by unfold EPS; norm_num
    nlinarith
  have hE : EPS = 3e-11 := by unfold EPS; norm_num
  rw [hE] at ha1
  rw [weight_two_denominator z1 hz0]
  have hD1 : 2 < 2 + 6 * (z1 ^ 2 - 1 / 3) - 9 * (z1 ^ 2 - 1 / 3) ^ 2 / 4 := by
    nlinarith
  have hD2 : 2 + 6 * (z1 ^ 2 - 1 / 3) - 9 * (z1 ^ 2 - 1 / 3) ^ 2 / 4 ≤ 2 + 4e-10 := by
    nlinarith [sq_nonneg (z1 ^ 2 - 1 / 3)]
  have hDpos : 0 < 2 + 6 * (z1 ^ 2 - 1 / 3) - 9 * (z1 ^ 2 - 1 / 3) ^ 2 / 4 := by linarith
  have hW1 : 1 / (2 + 6 * (z1 ^ 2 - 1 / 3) - 9 * (z1 ^ 2 - 1 / 3) ^ 2 / 4) < 1 / 2 :=
    one_div_lt_one_div_of_lt (by norm_num) hD1
  have hW2 : 1 / (2 + 4e-10 : ℝ) ≤ 1 / (2 + 6 * (z1 ^ 2 - 1 / 3) - 9 * (z1 ^ 2 - 1 / 3) ^ 2 / 4) :=
    one_div_le_one_div_of_le hDpos hD2
  have hW3 : (1 - 1e-9) / 2 ≤ 1 / (2 + 4e-10 : ℝ) := by norm_num
  refine ⟨by linarith, by linarith, by linarith, by linarith, by positivity, by linarith,
    by linarith⟩

/-! ## The copula difference is a probability -/

theorem dSPoi_succ_pos (m : ℕ) (lam : ℝ) (hlam : 0 < lam) : 0 < dSPoi ((m : ℝ) + 1) lam := by
  rw [dSPoi_natCast]
  positivity

theorem FSPoi_lt_succ (m : ℕ) (lam : ℝ) (hlam : 0 < lam) :
    FSPoi (m : ℝ) lam < FSPoi ((m : ℝ) + 1) lam := by
  rw [FSPoi_succ]
  linarith [dSPoi_succ_pos m lam hlam]

theorem FSPoi_succ_lt_one (m : ℕ) (lam : ℝ) (hlam : 0 < lam) :
    FSPoi ((m : ℝ) + 1) lam < 1 := by
  have e : ((m : ℝ) + 1) = ((m + 1 : ℕ) : ℝ) := by push_cast; ring
  rw [e]
  exact FSPoi_lt_one (m + 1) lam hlam

theorem C2B1_pos (u v rho : ℝ) : 0 < C2B1 u v rho := by
  rw [C2B1_eq]
  exact Phi_pos _

theorem C2B1_lt_one (u v rho : ℝ) : C2B1 u v rho < 1 := by
  rw [C2B1_eq]
  exact Phi_lt_one _

theorem C2B1_lt_C2B1 (u1 u2 v rho : ℝ) (h0 : 0 < u1) (h12 : u1 < u2) (h1 : u2 < 1)
    (hr1 : -1 < rho) (hr2 : rho < 1) : C2B1 u1 v rho < C2B1 u2 v rho := by
  rw [C2B1_eq, C2B1_eq]
  apply Phi_strictMono
  apply div_lt_div_of_pos_right _ (sig_pos rho hr1 hr2)
  linarith [Pinv_lt_Pinv h0 h12 h1]

theorem copula_diff_bounds (m : ℕ) (lam v rho : ℝ) (hm : 1 ≤ m) (hlam : 0 < lam)
    (hr1 : -1 < rho) (hr2 : rho < 1) :
    0 < C2B1 (FSPoi ((m : ℝ) + 1) lam) v rho - C2B1 (FSPoi (m : ℝ) lam) v rho
      ∧ C2B1 (FSPoi ((m : ℝ) + 1) lam) v rho - C2B1 (FSPoi (m : ℝ) lam) v rho < 1 := by
  have h := C2B1_lt_C2B1 _ _ v rho (FSPoi_pos m lam hm hlam) (FSPoi_lt_succ m lam hlam)
    (FSPoi_succ_lt_one m lam hlam) hr1 hr2
  have h1 := C2B1_lt_one (FSPoi ((m : ℝ) + 1) lam) v rho
  have h2 := C2B1_pos (FSPoi (m : ℝ) lam) v rho
  constructor <;> linarith

/-- For a count that is a natural number the term `logintg_i` is finite and negative. -/
theorem logTerm_neg (par : List ℝ) (centers : List (ℝ × ℝ)) (Kcen : ℕ) (g : ℝ) (o : Obs)
    (xk : ℝ) (m : ℕ) (hy : o.y = (m : ℝ)) :
    ∃ t : ℝ, logTerm par centers Kcen g o xk = some t ∧ t < 0 := by
  by_cases hm : m = 0
  · have hy0 : o.y = 0 := by rw [hy, hm]; simp
    refine ⟨_, logTerm_zero_count par centers Kcen g o xk hy0, ?_⟩
    have : 0 < Real.log (1 + Real.exp (specLink par 0 centers Kcen g o)) :=
      Real.log_pos (by linarith [Real.exp_pos (specLink par 0 centers Kcen g o)])
    linarith
  · have hm1 : 1 ≤ m := Nat.one_le_iff_ne_zero.mpr hm
    have hne : o.y ≠ 0 := by
      rw [hy]
      exact_mod_cast hm
    have hp := Real.exp_pos (specLink par 0 centers Kcen g o)
    have hq : 0 < Real.exp (specLink par 0 centers Kcen g o)
        / (1 + Real.exp (specLink par 0 centers Kcen g o)) := by positivity
    have hq1 : Real.exp (specLink par 0 centers Kcen g o)
        / (1 + Real.exp (specLink par 0 centers Kcen g o)) < 1 := by
      rw [div_lt_one (by positivity)]
      linarith
    have hd := copula_diff_bounds m (Real.exp (specLink par (Kcen + 5) centers Kcen g o)) xk
      (rhoOf (specField par (2 * Kcen + 10) centers Kcen g o)) hm1 (Real.exp_pos _)
      (rhoOf_gt _) (rhoOf_lt _)
    rw [← hy] at hd
    refine ⟨0 + Real.log (Real.exp (specLink par 0 centers Kcen g o)
        / (1 + Real.exp (specLink par 0 centers Kcen g o)))
      + Real.log (C2B1 (FSPoi (o.y + 1) (Real.exp (specLink par (Kcen + 5) centers Kcen g o)))
          xk (rhoOf (specField par (2 * Kcen + 10) centers Kcen g o))
        - C2B1 (FSPoi o.y (Real.exp (specLink par (Kcen + 5) centers Kcen g o)))
          xk (rhoOf (specField par (2 * Kcen + 10) centers Kcen g o))), ?_, ?_⟩
    · unfold logTerm
      simp only [hne, if_false, flog, if_pos hq, if_pos hd.1, fadd]
    · have l1 := Real.log_neg hq hq1
      have l2 := Real.log_neg hd.1 hd.2
      linarith

theorem filterMap_sum_nonpos {β : Type} (f : β → Option ℝ) (l : List β)
    (h : ∀ o ∈ l, ∃ t : ℝ, f o = some t ∧ t < 0) : (l.filterMap f).sum ≤ 0 := by
  induction l with
  | nil => simp
  | cons x xs ih =>
    obtain ⟨t, ht, htneg⟩ := h x (List.mem_cons_self _ _)
    have := ih (fun o ho => h o (List.mem_cons_of_mem _ ho))
    rw [List.filterMap_cons_some ht, List.sum_cons]
    linarith

/-- With counts that are natural numbers and positive weights, the value of the joint
evaluator is positive and at most the sum of the weights. -/
theorem jointValue_bounds (par : List ℝ) (dat : List Obs) (centers : List (ℝ × ℝ))
    (Kcen : ℕ) (g : ℝ) (nq : ℕ) (q : List ℝ × List ℝ) (hnq : 1 ≤ nq)
    (hy : ∀ o ∈ dat, ∃ m : ℕ, o.y = (m : ℝ)) (hw : ∀ k, k < nq → 0 < q.2.getD k 0) :
    0 < jointValue par dat centers Kcen g nq q
      ∧ jointValue par dat centers Kcen g nq q ≤ ∑ k in Finset.range nq, q.2.getD k 0 := by
  unfold jointValue
  constructor
  · apply Finset.sum_pos
    · intro k hk
      exact mul_pos (Real.exp_pos _) (hw k (Finset.mem_range.mp hk))
    · exact ⟨0, Finset.mem_range.mpr (by omega)⟩
  · apply Finset.sum_le_sum
    intro k hk
    have hs : (dat.filterMap (fun o => logTerm par centers Kcen g o (q.1.getD k 0))).sum ≤ 0 :=
      filterMap_sum_nonpos _ dat (fun o ho => by
        obtain ⟨m, hm⟩ := hy o ho
        exact logTerm_neg par centers Kcen g o _ m hm)
    have he : Real.exp ((dat.filterMap
        (fun o => logTerm par centers Kcen g o (q.1.getD k 0))).sum) ≤ 1 := by
      rw [← Real.exp_zero]
      exact Real.exp_le_exp.mpr hs
    have hwk := hw k (Finset.mem_range.mp hk)
    nlinarith

/-- At the orders one and two the joint evaluator returns a value in `(0, 1]` for every
table of natural counts. -/
theorem nllk_all_C_unit_interval_small_orders (par : List ℝ) (dat : List Obs)
    (centers : List (ℝ × ℝ)) (Kcen : ℕ) (g : ℝ) (hp : 3 * Kcen + 11 ≤ par.length)
    (hc : Kcen ≤ centers.length) (hy : ∀ o ∈ dat, ∃ m : ℕ, o.y = (m : ℝ)) :
    (∀ fuel, 1 ≤ fuel → ∃ v, nllk_all_C fuel par dat centers Kcen g 1 = .ok v ∧ 0 < v ∧ v ≤ 1)
      ∧ (∀ fuel, 36 ≤ fuel →
          ∃ v, nllk_all_C fuel par dat centers Kcen g 2 = .ok v ∧ 0 < v ∧ v ≤ 1) := by
  constructor
  · intro fuel hf
    obtain ⟨f, rfl⟩ : ∃ f, fuel = f + 1 := ⟨fuel - 1, by omega⟩
    rw [nllk_all_C_eq (f + 1) par dat centers Kcen g 1 hp hc, gauleg_one f]
    have hb := jointValue_bounds par dat centers Kcen g 1 ([0.5], [1]) le_rfl hy (by
      intro k hk
      have : k = 0 := by omega
      subst this
      simp)
    refine ⟨_, rfl, hb.1, ?_⟩
    refine le_trans hb.2 ?_
    simp
  · intro fuel hf
    obtain ⟨x0, x1, W, hg, -, -, -, -, hW, hlt, -⟩ := gauleg_two_quality fuel hf
    rw [nllk_all_C_eq fuel par dat centers Kcen g 2 hp hc, hg]
    have hb := jointValue_bounds par dat centers Kcen g 2 ([x0, x1], [W, W]) (by norm_num) hy (by
      intro k hk
      have : k = 0 ∨ k = 1 := by omega
      rcases this with h | h <;> subst h <;> simpa using hW)
    refine ⟨_, rfl, hb.1, ?_⟩
    refine le_trans hb.2 ?_
    rw [Finset.sum_range_succ, Finset.sum_range_one]
    simp
    linarith

theorem dSPoi_one (lam : ℝ) : dSPoi 1 lam = Real.exp (-lam) := by
  have h := dSPoi_natCast 0 lam
  simpa using h

theorem dSPoi_two (lam : ℝ) : dSPoi 2 lam = Real.exp (-lam) * lam := by
  have h := dSPoi_natCast 1 lam
  norm_num at h
  exact h

theorem logTerm_count_one_example (xk : ℝ) :
    logTerm [0, 0, 0, 0, 0, 1, 0, 0, 0, 0, 0] [] 0 1 ⟨0, 1, 0, 0⟩ xk
      = some (Real.log (1 / 2) + Real.log (dSPoi 2 (Real.exp 1))) := by
  have ha : specLink [0, 0, 0, 0, 0, 1, 0, 0, 0, 0, 0] 0 [] 0 1 ⟨0, 1, 0, 0⟩ = 0 := by
    simp [specLink, specField]
  have hb : specLink [0, 0, 0, 0, 0, 1, 0, 0, 0, 0, 0] (0 + 5) [] 0 1 ⟨0, 1, 0, 0⟩ = 1 := by
    simp [specLink, specField]
  have hd : rhoOf (specField [0, 0, 0, 0, 0, 1, 0, 0, 0, 0, 0] (2 * 0 + 10) [] 0 1
      ⟨0, 1, 0, 0⟩) = 0 := by
    simp [specField, rhoOf]
  have hdiff := copula_diff_indep 1 (Real.exp 1) xk le_rfl (Real.exp_pos 1)
  have e2 : ((1 : ℕ) : ℝ) + 1 = 2 := by norm_num
  rw [e2, Nat.cast_one] at hdiff
  have hpos : 0 < dSPoi 2 (Real.exp 1) := by
    rw [dSPoi_two]
    positivity
  unfold logTerm
  simp only [ha, hb, hd, Real.exp_zero]
  have hy : ((1 : ℝ) = 0) = False := by norm_num
  have e3 : (1 : ℝ) + 1 = 2 := by norm_num
  simp only [hy, if_false, e3, hdiff, flog, if_pos hpos, fadd]
  norm_num

/-! ## The shifted-Poisson distribution function in its first argument -/

/-! ## Monotonicity and limit of the shifted Poisson distribution function -/

theorem FSPoi_mono_nat (lam : ℝ) (hlam : 0 ≤ lam) (x x' : ℕ) (hle : x ≤ x') :
    FSPoi (x : ℝ) lam ≤ FSPoi (x' : ℝ) lam := by
  rw [FSPoi_natCast, FSPoi_natCast]
  apply Finset.sum_le_sum_of_subset_of_nonneg
  · exact Finset.range_mono hle
  · intro i _ _
    positivity

theorem forall₂_getElem? {β : Type} (R : β → β → Prop) (l l' : List β)
    (h : List.Forall₂ R l l') (i : ℕ) :
    (l[i]? = none ∧ l'[i]? = none) ∨ ∃ a b, l[i]? = some a ∧ l'[i]? = some b ∧ R a b := by
  induction h generalizing i with
  | nil => left; simp
  | cons hab _ ih =>
    cases i with
    | zero => right; exact ⟨_, _, by simp, by simp, hab⟩
    | succ j => simpa using ih j

theorem pBody_congr (P : MargPar) (dat dat' : List Obs) (centers : List (ℝ × ℝ)) (Kcen : ℕ)
    (g : ℝ)
    (h : List.Forall₂ (fun o o' : Obs => o'.tt = o.tt ∧ o'.LON = o.LON ∧ o'.LAT = o.LAT
      ∧ (o'.y = 1 ↔ o.y = 1)) dat dat') (nllk : ℝ) (i : ℕ) :
    pBody P dat centers Kcen g nllk i = pBody P dat' centers Kcen g nllk i := by
  unfold pBody rd
  rcases forall₂_getElem? _ dat dat' h i with ⟨h1, h2⟩ | ⟨a, b, h1, h2, hR⟩
  · rw [h1, h2]
  · rw [h1, h2]
    obtain ⟨ht, hlon, hlat, hy⟩ := hR
    have hk : ∀ s, kernelLoop P.weig1 centers Kcen g b s = kernelLoop P.weig1 centers Kcen g a s := by
      intro s
      unfold kernelLoop
      rw [hlon, hlat]
    have hy' : (b.y = 1) = (a.y = 1) := propext hy
    simp only [Bind.bind, Except.bind, hk, ht, hy']

theorem nllk_p_C_congr (par : List ℝ) (dat dat' : List Obs) (centers : List (ℝ × ℝ))
    (Kcen : ℕ) (g : ℝ)
    (h : List.Forall₂ (fun o o' : Obs => o'.tt = o.tt ∧ o'.LON = o.LON ∧ o'.LAT = o.LAT
      ∧ (o'.y = 1 ↔ o.y = 1)) dat dat') :
    nllk_p_C par dat centers Kcen g = nllk_p_C par dat' centers Kcen g := by
  unfold nllk_p_C
  have hl : dat.length = dat'.length := h.length_eq
  have hb : ∀ P : MargPar, pBody P dat centers Kcen g = pBody P dat' centers Kcen g := by
    intro P
    funext nllk i
    exact pBody_congr P dat dat' centers Kcen g h nllk i
  simp only [hb, hl]

theorem forall₂_map_right {β : Type} (R : β → β → Prop) (f : β → β) (l : List β)
    (h : ∀ a ∈ l, R a (f a)) : List.Forall₂ R l (l.map f) := by
  induction l with
  | nil => exact List.Forall₂.nil
  | cons x xs ih =>
    exact List.Forall₂.cons (h x (List.mem_cons_self _ _))
      (ih (fun a ha => h a (List.mem_cons_of_mem _ ha)))

theorem forall₂_set {β : Type} (R : β → β → Prop) (hrefl : ∀ a, R a a) (l : List β) :
    ∀ (i : ℕ) (a b : β), l[i]? = some a → R a b → List.Forall₂ R l (l.set i b) := by
  induction l with
  | nil =>
    intro i a b h _
    simp at h
  | cons x xs ih =>
    intro i a b h hR
    cases i with
    | zero =>
      simp at h
      subst h
      exact List.Forall₂.cons hR (by
        simpa using forall₂_map_right R id xs (fun a _ => hrefl a))
    | succ j =>
      simp at h
      exact List.Forall₂.cons (hrefl x) (ih j a b h hR)

theorem nllk_p_C_set_count (par : List ℝ) (dat : List Obs) (centers : List (ℝ × ℝ))
    (Kcen : ℕ) (g : ℝ) (i : ℕ) (o : Obs) (c : ℝ) (hi : dat[i]? = some o) (hy : o.y ≠ 1)
    (hc : c ≠ 1) :
    nllk_p_C par (dat.set i ⟨o.tt, c, o.LON, o.LAT⟩) centers Kcen g
      = nllk_p_C par dat centers Kcen g := by
  symm
  apply nllk_p_C_congr
  apply forall₂_set _ _ dat i o _ hi
  · exact ⟨rfl, rfl, rfl, by simp [hy, hc]⟩
  · intro a
    exact ⟨rfl, rfl, rfl, Iff.rfl⟩

/-! ## Frame of the joint evaluator: which parameters are read, and bounds of the indices -/

/-! ## The joint evaluator reads `par` at the indices `0, …, 3*Kcen+10` only -/

theorem specField_congr (par par' : List ℝ) (off : ℕ) (centers : List (ℝ × ℝ)) (Kcen : ℕ)
    (g : ℝ) (o : Obs) (h : ∀ j, j ≤ off + Kcen → par.getD j 0 = par'.getD j 0) :
    specField par off centers Kcen g o = specField par' off centers Kcen g o := by
  unfold specField
  rw [h (off + Kcen) le_rfl]
  congr 1
  apply Finset.sum_congr rfl
  intro j hj
  rw [Finset.mem_range] at hj
  rw [h (off + j) (by omega)]

theorem specLink_congr (par par' : List ℝ) (off : ℕ) (centers : List (ℝ × ℝ)) (Kcen : ℕ)
    (g : ℝ) (o : Obs) (h : ∀ j, j ≤ off + Kcen + 4 → par.getD j 0 = par'.getD j 0) :
    specLink par off centers Kcen g o = specLink par' off centers Kcen g o := by
  unfold specLink
  rw [specField_congr par par' off centers Kcen g o (fun j hj => h j (by omega)),
    h (off + Kcen + 1) (by omega), h (off + Kcen + 2) (by omega),
    h (off + Kcen + 3) (by omega), h (off + Kcen + 4) (by omega)]

theorem logTerm_congr (par par' : List ℝ) (centers : List (ℝ × ℝ)) (Kcen : ℕ) (g : ℝ)
    (o : Obs) (xk : ℝ) (h : ∀ j, j ≤ 3 * Kcen + 10 → par.getD j 0 = par'.getD j 0) :
    logTerm par centers Kcen g o xk = logTerm par' centers Kcen g o xk := by
  unfold logTerm
  rw [specLink_congr par par' 0 centers Kcen g o (fun j hj => h j (by omega)),
    specLink_congr par par' (Kcen + 5) centers Kcen g o (fun j hj => h j (by omega)),
    specField_congr par par' (2 * Kcen + 10) centers Kcen g o (fun j hj => h j (by omega))]

theorem logTerm_congr_zero_count (par par' : List ℝ) (centers : List (ℝ × ℝ)) (Kcen : ℕ)
    (g : ℝ) (o : Obs) (xk : ℝ) (hy : o.y = 0)
    (h : ∀ j, j ≤ Kcen + 4 → par.getD j 0 = par'.getD j 0) :
    logTerm par centers Kcen g o xk = logTerm par' centers Kcen g o xk := by
  rw [logTerm_zero_count par centers Kcen g o xk hy,
    logTerm_zero_count par' centers Kcen g o xk hy,
    specLink_congr par par' 0 centers Kcen g o (fun j hj => h j (by omega))]

theorem jointValue_congr (par par' : List ℝ) (dat : List Obs) (centers : List (ℝ × ℝ))
    (Kcen : ℕ) (g : ℝ) (nq : ℕ) (q : List ℝ × List ℝ)
    (h : ∀ o ∈ dat, ∀ xk : ℝ,
      logTerm par centers Kcen g o xk = logTerm par' centers Kcen g o xk) :
    jointValue par dat centers Kcen g nq q = jointValue par' dat centers Kcen g nq q := by
  unfold jointValue
  apply Finset.sum_congr rfl
  intro k _
  congr 3
  apply List.filterMap_congr
  intro o ho
  exact h o ho _

/-! ## No access of `gauleg` is out of bounds -/

theorem newton_not_outOfBounds (n : ℕ) : ∀ (fuel : ℕ) (z : ℝ),
    newton n fuel z ≠ .error .outOfBounds := by
  intro fuel
  induction fuel with
  | zero =>
    intro z h
    rw [newton] at h
    cases h
  | succ f ih =>
    intro z h
    rw [newton] at h
    simp only at h
    split_ifs at h
    · cases h
    · cases h
    · exact ih _ h

theorem gaulegBody_not_outOfBounds (fuel n : ℕ) (xm xl : ℝ) (s : List ℝ × List ℝ) (i : ℕ)
    (h1 : s.1.length = n) (h2 : s.2.length = n) (hi : 1 ≤ i) (hin : i ≤ n) :
    gaulegBody fuel n xm xl s i ≠ .error .outOfBounds := by
  unfold gaulegBody
  cases hn : newton n fuel (Real.cos (3.14159265358979323846 * ((i : ℝ) - 0.25)
      / ((n : ℝ) + 0.5))) with
  | error e =>
    intro h
    simp only [Bind.bind, Except.bind] at h
    cases h
    exact newton_not_outOfBounds n fuel _ hn
  | ok r =>
    obtain ⟨z, pp⟩ := r
    simp only [Bind.bind, Except.bind]
    rw [wr_ok s.1 (i - 1) _ (by omega)]
    simp only
    rw [wr_ok _ (n - i) _ (by rw [List.length_set]; omega)]
    simp only
    split_ifs
    · intro h
      cases h
    · rw [wr_ok s.2 (i - 1) _ (by omega)]
      simp only
      rw [rd_ok _ (i - 1) 0 (by rw [List.length_set]; omega)]
      simp only
      rw [wr_ok _ (n - i) _ (by rw [List.length_set]; omega)]
      intro h
      cases h

theorem foldlM_not_fault {σ β : Type} (P : σ → Prop) (e : Fault) (f : σ → β → Except Fault σ)
    (l : List β)
    (hf : ∀ s b, b ∈ l → P s → f s b ≠ .error e ∧ ∀ s', f s b = .ok s' → P s')
    (s : σ) (hs : P s) : l.foldlM f s ≠ .error e := by
  induction l generalizing s with
  | nil =>
    intro h
    cases h
  | cons x xs ih =>
    rw [List.foldlM_cons]
    have hx := hf s x (List.mem_cons_self _ _) hs
    cases hfx : f s x with
    | error e' =>
      intro h
      cases h
      exact hx.1 hfx
    | ok t =>
      exact ih (fun s b hb => hf s b (List.mem_cons_of_mem _ hb)) t (hx.2 t hfx)

theorem gauleg_not_outOfBounds (fuel nq : ℕ) (xq wq : List ℝ) (h1 : xq.length = nq)
    (h2 : wq.length = nq) : gauleg fuel nq xq wq ≠ .error .outOfBounds := by
  unfold gauleg
  apply foldlM_not_fault (fun s => s.1.length = nq ∧ s.2.length = nq)
  · intro s i hi hs
    rw [List.mem_range'_1] at hi
    refine ⟨gaulegBody_not_outOfBounds fuel nq _ _ s i hs.1 hs.2 hi.1 (by omega), ?_⟩
    intro s' hs'
    have := gaulegBody_length fuel nq _ _ s s' i hs'
    exact ⟨this.1.trans hs.1, this.2.trans hs.2⟩
  · exact ⟨h1, h2⟩

theorem nllk_all_C_not_outOfBounds (fuel : ℕ) (par : List ℝ) (dat : List Obs)
    (centers : List (ℝ × ℝ)) (Kcen : ℕ) (g : ℝ) (nq : ℕ) (hp : 3 * Kcen + 11 ≤ par.length)
    (hc : Kcen ≤ centers.length) :
    nllk_all_C fuel par dat centers Kcen g nq ≠ .error .outOfBounds := by
  rw [nllk_all_C_eq fuel par dat centers Kcen g nq hp hc]
  cases h : gauleg fuel nq (List.replicate nq 0) (List.replicate nq 0) with
  | error e =>
    intro h'
    simp only [Except.map] at h'
    cases h'
    exact gauleg_not_outOfBounds fuel nq _ _ (by simp) (by simp) h
  | ok q =>
    intro h'
    simp only [Except.map] at h'
    cases h'

theorem nllk_all_C_congr (fuel : ℕ) (par par' : List ℝ) (dat : List Obs)
    (centers : List (ℝ × ℝ)) (Kcen : ℕ) (g : ℝ) (nq : ℕ) (hp : 3 * Kcen + 11 ≤ par.length)
    (hp' : 3 * Kcen + 11 ≤ par'.length) (hc : Kcen ≤ centers.length)
    (h : ∀ o ∈ dat, ∀ xk : ℝ,
      logTerm par centers Kcen g o xk = logTerm par' centers Kcen g o xk) :
    nllk_all_C fuel par dat centers Kcen g nq = nllk_all_C fuel par' dat centers Kcen g nq := by
  have hj : jointValue par dat centers Kcen g nq = jointValue par' dat centers Kcen g nq :=
    funext (fun q => jointValue_congr par par' dat centers Kcen g nq q h)
  rw [nllk_all_C_eq fuel par dat centers Kcen g nq hp hc,
    nllk_all_C_eq fuel par' dat centers Kcen g nq hp' hc, hj]

/-! ## The Newton loop at order three -/

/-! ## `gauleg` at order three -/

theorem legendre_three (z : ℝ) :
    legendre 3 z = ((5 * z * z * z - 3 * z) / 2, (3 * z * z - 1) / 2) := by
  unfold legendre
  have hr : List.range' 1 3 = [1, 2, 3] := by decide
  simp [hr, legendreStep]
  norm_num
  ring

theorem newton_three_step (fuel : ℕ) (z : ℝ) (h1 : z * z - 1 ≠ 0) (h2 : 5 * z * z - 1 ≠ 0) :
    newton 3 (fuel + 1) z
      = if |(z - (5 * z * z * z - 3 * z) / 2 / (3 * (5 * z * z - 1) / 2)) - z| > EPS
        then newton 3 fuel (z - (5 * z * z * z - 3 * z) / 2 / (3 * (5 * z * z - 1) / 2))
        else .ok (z - (5 * z * z * z - 3 * z) / 2 / (3 * (5 * z * z - 1) / 2),
          3 * (5 * z * z - 1) / 2) := by
  have hsq : z * z - 1.0 ≠ 0 := by
    norm_num
    exact h1
  have hpp : ((3 : ℕ) : ℝ) * (z * ((5 * z * z * z - 3 * z) / 2) - (3 * z * z - 1) / 2)
      / (z * z - 1.0) = 3 * (5 * z * z - 1) / 2 := by
    norm_num
    field_simp
    ring
  have hne : 3 * (5 * z * z - 1) / 2 ≠ 0 := by
    intro h
    apply h2
    linarith
  rw [newton]
  simp only [legendre_three]
  rw [if_neg hsq, hpp, if_neg hne]

theorem newton_three_stop (k : ℕ) : ∀ z : ℝ, 0 < z → z < 1 → 3 < 5 * z * z →
    (5 * z * z * z - 3 * z) / (3 * (5 * z * z - 1)) ≤ 2 ^ k * EPS →
    ∃ z1 : ℝ, 0 < z1 ∧ z1 < 1 ∧ 3 < 5 * z1 * z1
      ∧ (5 * z1 * z1 * z1 - 3 * z1) / (3 * (5 * z1 * z1 - 1)) ≤ EPS
      ∧ newton 3 (k + 1) z = .ok (z1 - (5 * z1 * z1 * z1 - 3 * z1) / (3 * (5 * z1 * z1 - 1)),
          3 * (5 * z1 * z1 - 1) / 2) := by
  induction k with
  | zero =>
    intro z h0 h1 h3 hs
    have hd : 0 < 3 * (5 * z * z - 1) := by linarith
    have hpos : 0 < (5 * z * z * z - 3 * z) / (3 * (5 * z * z - 1)) := by
      apply div_pos _ hd
      nlinarith
    have e : z - (5 * z * z * z - 3 * z) / 2 / (3 * (5 * z * z - 1) / 2) - z
        = -((5 * z * z * z - 3 * z) / (3 * (5 * z * z - 1))) := by
      field_simp
      ring
    have e' : z - (5 * z * z * z - 3 * z) / 2 / (3 * (5 * z * z - 1) / 2)
        = z - (5 * z * z * z - 3 * z) / (3 * (5 * z * z - 1)) := by
      field_simp
    refine ⟨z, h0, h1, h3, by simpa using hs, ?_⟩
    rw [newton_three_step 0 z (by nlinarith) (by linarith), e, abs_neg, abs_of_pos hpos,
      if_neg (by simpa using hs), e']
  | succ k ih =>
    intro z h0 h1 h3 hs
    have hd : 0 < 3 * (5 * z * z - 1) := by linarith
    have hnum : 0 < 5 * z * z * z - 3 * z := by nlinarith
    have hpos : 0 < (5 * z * z * z - 3 * z) / (3 * (5 * z * z - 1)) := div_pos hnum hd
    have e : z - (5 * z * z * z - 3 * z) / 2 / (3 * (5 * z * z - 1) / 2) - z
        = -((5 * z * z * z - 3 * z) / (3 * (5 * z * z - 1))) := by
      field_simp
      ring
    have e' : z - (5 * z * z * z - 3 * z) / 2 / (3 * (5 * z * z - 1) / 2)
        = z - (5 * z * z * z - 3 * z) / (3 * (5 * z * z - 1)) := by
      field_simp
    rw [newton_three_step (k + 1) z (by nlinarith) (by linarith), e, abs_neg, abs_of_pos hpos]
    by_cases hstop : (5 * z * z * z - 3 * z) / (3 * (5 * z * z - 1)) > EPS
    · rw [if_pos hstop, e']
      -- the next iterate `N` and its step
      have hN : z - (5 * z * z * z - 3 * z) / (3 * (5 * z * z - 1))
          = 10 * z * z * z / (3 * (5 * z * z - 1)) := by
        field_simp
        ring
      have hNpos : 0 < z - (5 * z * z * z - 3 * z) / (3 * (5 * z * z - 1)) := by
        rw [hN]
        positivity
      have hNlt : z - (5 * z * z * z - 3 * z) / (3 * (5 * z * z - 1)) < 1 := by linarith
      have hNle : z - (5 * z * z * z - 3 * z) / (3 * (5 * z * z - 1)) ≤ z := by linarith
      have hsq : 5 * (z - (5 * z * z * z - 3 * z) / (3 * (5 * z * z - 1)))
            * (z - (5 * z * z * z - 3 * z) / (3 * (5 * z * z - 1))) - 3
          = ((5 * z * z * z - 3 * z) / (3 * (5 * z * z - 1))) ^ 2 * (20 * z * z - 3) / (z * z) := by
        field_simp
        ring
      have hq : 0 < ((5 * z * z * z - 3 * z) / (3 * (5 * z * z - 1))) ^ 2 * (20 * z * z - 3)
          / (z * z) := by
        apply div_pos _ (by positivity)
        apply mul_pos (by positivity)
        linarith
      have hN3 : 3 < 5 * (z - (5 * z * z * z - 3 * z) / (3 * (5 * z * z - 1)))
          * (z - (5 * z * z * z - 3 * z) / (3 * (5 * z * z - 1))) := by
        linarith
      refine ih _ hNpos hNlt hN3 ?_
      -- the step at `N` is at most half the step at `z`
      generalize hsdef : (5 * z * z * z - 3 * z) / (3 * (5 * z * z - 1)) = s at *
      generalize hNdef : z - s = N at *
      have hs6 : s * (20 * z * z - 3) ≤ 3 * z := by
        have hsz : s * (3 * (5 * z * z - 1)) = 5 * z * z * z - 3 * z := by
          rw [← hsdef]
          field_simp
        have h100 : (5 * z * z - 3) * (20 * z * z - 3) ≤ 3 * (15 * z * z - 3) := by
          nlinarith
        have h20 : 0 < 20 * z * z - 3 := by linarith
        have : s * (20 * z * z - 3) * (3 * (5 * z * z - 1)) ≤ 3 * z * (3 * (5 * z * z - 1)) := by
          calc s * (20 * z * z - 3) * (3 * (5 * z * z - 1))
              = (5 * z * z * z - 3 * z) * (20 * z * z - 3) := by rw [← hsz]; ring
            _ = z * ((5 * z * z - 3) * (20 * z * z - 3)) := by ring
            _ ≤ z * (3 * (15 * z * z - 3)) := mul_le_mul_of_nonneg_left h100 h0.le
            _ = 3 * z * (3 * (5 * z * z - 1)) := by ring
        exact le_of_mul_le_mul_right this hd
      have h5N : 5 * N * N - 3 = s ^ 2 * (20 * z * z - 3) / (z * z) := hsq
      have hdN : 0 < 3 * (5 * N * N - 1) := by linarith
      rw [div_le_iff₀ hdN]
      have hE : 0 < EPS := by unfold EPS; norm_num
      have hk : 0 < (2 : ℝ) ^ k := by positivity
      have h2 : s ≤ 2 * (2 ^ k * EPS) := by
        rw [pow_succ] at hs
        linarith
      -- `5 N³ - 3 N = N (5 N² - 3) ≤ s (3 (5 N² - 1)) / 2`
      have hkey : 2 * (5 * N * N * N - 3 * N) ≤ s * (3 * (5 * N * N - 1)) := by
        have h6 : 6 ≤ 3 * (5 * N * N - 1) := by linarith
        have hNs : N * (s * (20 * z * z - 3)) ≤ z * (3 * z) :=
          mul_le_mul hNle hs6 (by nlinarith [hpos.le]) h0.le
        have h5 : 2 * (N * (5 * N * N - 3)) ≤ 6 * s := by
          rw [h5N]
          rw [show 2 * (N * (s ^ 2 * (20 * z * z - 3) / (z * z)))
            = 2 * s * (N * (s * (20 * z * z - 3))) / (z * z) by ring]
          rw [div_le_iff₀ (by positivity)]
          nlinarith [mul_le_mul_of_nonneg_left hNs (by linarith : (0 : ℝ) ≤ 2 * s)]
        calc 2 * (5 * N * N * N - 3 * N) = 2 * (N * (5 * N * N - 3)) := by ring
          _ ≤ 6 * s := h5
          _ ≤ s * (3 * (5 * N * N - 1)) := by
            have := mul_le_mul_of_nonneg_left h6 hpos.le
            linarith
      have hfin := mul_le_mul_of_nonneg_right h2 hdN.le
      linarith
    · rw [if_neg hstop]
      refine ⟨z, h0, h1, h3, not_lt.mp hstop, ?_⟩
      rw [e']

theorem cos_start_three :
    0.78 < Real.cos (3.14159265358979323846 * (((1 : ℕ) : ℝ) - 0.25) / (((3 : ℕ) : ℝ) + 0.5))
      ∧ Real.cos (3.14159265358979323846 * (((1 : ℕ) : ℝ) - 0.25) / (((3 : ℕ) : ℝ) + 0.5)) < 1 := by
  have e : (3.14159265358979323846 * (((1 : ℕ) : ℝ) - 0.25) / (((3 : ℕ) : ℝ) + 0.5) : ℝ)
      = 2 * (3 / 28 * 3.14159265358979323846) := by
    push_cast
    norm_num
  rw [e, Real.cos_two_mul, Real.cos_sq']
  have hx0 : (0 : ℝ) < 3 / 28 * 3.14159265358979323846 := by norm_num
  have hx1 : |(3 / 28 * 3.14159265358979323846 : ℝ)| ≤ 1 := by
    rw [abs_of_pos hx0]; norm_num
  have hpi : (3 / 28 * 3.14159265358979323846 : ℝ) < Real.pi := by
    have := Real.pi_gt_three
    norm_num
    linarith
  have hs0 := Real.sin_pos_of_pos_of_lt_pi hx0 hpi
  have hb := (abs_le.mp (Real.sin_bound hx1)).2
  rw [abs_of_pos hx0] at hb
  have hB : Real.sin (3 / 28 * 3.14159265358979323846) ≤ 0.331 := by
    have : (3 / 28 * 3.14159265358979323846 : ℝ) - (3 / 28 * 3.14159265358979323846) ^ 3 / 6
        + (3 / 28 * 3.14159265358979323846) ^ 4 * (5 / 96) ≤ 0.331 := by norm_num
    linarith
  constructor
  · nlinarith
  · nlinarith

theorem cos_start_three_mid :
    0 < Real.cos (3.14159265358979323846 * (((2 : ℕ) : ℝ) - 0.25) / (((3 : ℕ) : ℝ) + 0.5))
      ∧ Real.cos (3.14159265358979323846 * (((2 : ℕ) : ℝ) - 0.25) / (((3 : ℕ) : ℝ) + 0.5))
        ≤ 1e-20 := by
  have h1 := Real.pi_gt_d20
  have h2 := Real.pi_lt_d20
  have e : (3.14159265358979323846 * (((2 : ℕ) : ℝ) - 0.25) / (((3 : ℕ) : ℝ) + 0.5) : ℝ)
      = Real.pi / 2 - (Real.pi / 2 - 3.14159265358979323846 / 2) := by
    push_cast
    ring
  rw [e, Real.cos_pi_div_two_sub]
  have hx0 : 0 < Real.pi / 2 - 3.14159265358979323846 / 2 := by linarith
  constructor
  · exact Real.sin_pos_of_pos_of_lt_pi hx0 (by linarith [Real.pi_pos])
  · refine le_trans (Real.sin_lt hx0).le ?_
    norm_num
    linarith

/-- The Newton loop of order three started at a tiny positive value stops after one
iteration, at a value that is negative. -/
theorem newton_three_mid (fuel : ℕ) (c : ℝ) (h0 : 0 < c) (h1 : c ≤ 1e-20) :
    newton 3 (fuel + 1) c
      = .ok (10 * c * c * c / (3 * (5 * c * c - 1)), 3 * (5 * c * c - 1) / 2)
      ∧ 10 * c * c * c / (3 * (5 * c * c - 1)) < 0
      ∧ -1e-20 ≤ 10 * c * c * c / (3 * (5 * c * c - 1)) := by
  have hc2 : c * c ≤ 1e-20 := by nlinarith
  have hd : 3 * (5 * c * c - 1) < 0 := by nlinarith
  have hd' : 3 * (5 * c * c - 1) ≤ -2 := by nlinarith
  have hN : c - (5 * c * c * c - 3 * c) / 2 / (3 * (5 * c * c - 1) / 2)
      = 10 * c * c * c / (3 * (5 * c * c - 1)) := by
    have : 5 * c * c - 1 ≠ 0 := by nlinarith
    field_simp
    ring
  have hneg : 10 * c * c * c / (3 * (5 * c * c - 1)) < 0 :=
    div_neg_of_pos_of_neg (by positivity) hd
  have hlow : -1e-20 ≤ 10 * c * c * c / (3 * (5 * c * c - 1)) := by
    rw [le_div_iff_of_neg hd]
    nlinarith [mul_pos h0 h0, mul_pos (mul_pos h0 h0) h0]
  refine ⟨?_, hneg, hlow⟩
  rw [newton_three_step fuel c (by nlinarith) (by nlinarith), hN]
  have hstop : ¬ (|10 * c * c * c / (3 * (5 * c * c - 1)) - c| > EPS) := by
    rw [not_lt, abs_le]
    unfold EPS
    constructor <;> norm_num <;> linarith
  rw [if_neg hstop]

theorem newton_three_outer (fuel : ℕ) (hf : 36 ≤ fuel) :
    ∃ zA ppA : ℝ, newton 3 fuel (Real.cos (3.14159265358979323846 * (((1 : ℕ) : ℝ) - 0.25)
        / (((3 : ℕ) : ℝ) + 0.5))) = .ok (zA, ppA) ∧ 0 < zA ∧ zA < 1 ∧ 0 < ppA := by
  obtain ⟨hlo, hhi⟩ := cos_start_three
  generalize Real.cos (3.14159265358979323846 * (((1 : ℕ) : ℝ) - 0.25)
      / (((3 : ℕ) : ℝ) + 0.5)) = c1 at *
  have h0 : 0 < c1 := by linarith
  have h3 : 3 < 5 * c1 * c1 := by nlinarith
  have hs : (5 * c1 * c1 * c1 - 3 * c1) / (3 * (5 * c1 * c1 - 1)) ≤ 2 ^ 35 * EPS := by
    rw [div_le_iff₀ (by linarith)]
    unfold EPS
    norm_num
    nlinarith [mul_pos h0 h0]
  obtain ⟨z1, hz0, hz1, hz3, -, hn⟩ := newton_three_stop 35 _ h0 hhi h3 hs
  have hn' := newton_fuel_le 3 36 fuel _ _ hf hn
  have hd : 0 < 3 * (5 * z1 * z1 - 1) := by linarith
  have hspos : 0 < (5 * z1 * z1 * z1 - 3 * z1) / (3 * (5 * z1 * z1 - 1)) := by
    apply div_pos _ hd
    nlinarith
  have hNA : z1 - (5 * z1 * z1 * z1 - 3 * z1) / (3 * (5 * z1 * z1 - 1))
      = 10 * z1 * z1 * z1 / (3 * (5 * z1 * z1 - 1)) := by
    rw [eq_div_iff hd.ne', sub_mul, div_mul_cancel₀ _ hd.ne']
    ring
  refine ⟨_, _, hn', ?_, by linarith, by linarith⟩
  rw [hNA]
  positivity

theorem newton_three_middle (fuel : ℕ) (hf : 1 ≤ fuel) :
    ∃ zB ppB : ℝ, newton 3 fuel (Real.cos (3.14159265358979323846 * (((2 : ℕ) : ℝ) - 0.25)
        / (((3 : ℕ) : ℝ) + 0.5))) = .ok (zB, ppB) ∧ zB < 0 ∧ -1e-20 ≤ zB ∧ ppB < 0 := by
  obtain ⟨hm0, hm1⟩ := cos_start_three_mid
  obtain ⟨f, rfl⟩ : ∃ f, fuel = f + 1 := ⟨fuel - 1, by omega⟩
  obtain ⟨hmid, hzBneg, hzBlow⟩ := newton_three_mid f _ hm0 hm1
  refine ⟨_, _, hmid, hzBneg, hzBlow, ?_⟩
  generalize Real.cos (3.14159265358979323846 * (((2 : ℕ) : ℝ) - 0.25)
      / (((3 : ℕ) : ℝ) + 0.5)) = c at *
  nlinarith

theorem gauleg_three (fuel : ℕ) (hf : 36 ≤ fuel) :
    ∃ zA zB ppA ppB : ℝ, gauleg fuel 3 (List.replicate 3 0) (List.replicate 3 0)
        = .ok ([0.5 - 0.5 * zA, 0.5 + 0.5 * zB, 0.5 + 0.5 * zA],
            [1 / ((1 - zA ^ 2) * ppA ^ 2), 1 / ((1 - zB ^ 2) * ppB ^ 2),
              1 / ((1 - zA ^ 2) * ppA ^ 2)])
      ∧ 0 < zA ∧ zA < 1 ∧ zB < 0 ∧ -1e-20 ≤ zB ∧ 0 < ppA ∧ ppB < 0 := by
  obtain ⟨zA, ppA, hA, hzApos, hzAlt, hppA⟩ := newton_three_outer fuel hf
  obtain ⟨zB, ppB, hB, hzBneg, hzBlow, hppB⟩ := newton_three_middle fuel (by omega)
  refine ⟨zA, zB, ppA, ppB, ?_, hzApos, hzAlt, hzBneg, hzBlow, hppA, hppB⟩
  have hdenA : (1.0 - zA * zA) * ppA * ppA ≠ 0 := by
    have h1 : (1.0 : ℝ) - zA * zA ≠ 0 := by
      have : (1.0 : ℝ) = 1 := by norm_num
      rw [this]
      nlinarith
    exact mul_ne_zero (mul_ne_zero h1 hppA.ne') hppA.ne'
  have hdenB : (1.0 - zB * zB) * ppB * ppB ≠ 0 := by
    have h1 : (1.0 : ℝ) - zB * zB ≠ 0 := by
      have : (1.0 : ℝ) = 1 := by norm_num
      rw [this]
      nlinarith
    exact mul_ne_zero (mul_ne_zero h1 hppB.ne) hppB.ne
  unfold gauleg
  have hr : List.range' 1 ((3 + 1) / 2) = [1, 2] := by decide
  simp only [hr, List.foldlM_cons, List.foldlM_nil]
  unfold gaulegBody
  simp only [hA, hB, Bind.bind, Except.bind, wr, rd, Pure.pure, Except.pure, if_neg hdenA,
    if_neg hdenB]
  simp
  norm_num
  refine ⟨by ring, by ring, by ring⟩

/-! ## Symmetric assignment of nodes and weights in `gauleg` -/

theorem getD_set_ne (l : List ℝ) (i j : ℕ) (v : ℝ) (h : i ≠ j) :
    (l.set i v).getD j 0 = l.getD j 0 := by
  rw [List.getD_eq_getElem?_getD, List.getD_eq_getElem?_getD, List.getElem?_set_ne h]

theorem getD_set_self (l : List ℝ) (i : ℕ) (v : ℝ) (h : i < l.length) :
    (l.set i v).getD i 0 = v := by
  rw [List.getD_eq_getElem?_getD, List.getElem?_set_self h]
  rfl

theorem foldlM_range'_inv {σ : Type} (f : σ → ℕ → Except Fault σ) (m : ℕ) :
    ∀ (P : ℕ → σ → Prop) (a : ℕ),
      (∀ j s s', j < m → f s (a + j) = .ok s' → P j s → P (j + 1) s') →
      ∀ s s', (List.range' a m).foldlM f s = .ok s' → P 0 s → P m s' := by
  induction m with
  | zero =>
    intro P a _ s s' h hs
    cases h
    exact hs
  | succ m ih =>
    intro P a hf s s' h hs
    rw [List.range'_succ, List.foldlM_cons] at h
    cases hx : f s a with
    | error e =>
      rw [hx] at h
      cases h
    | ok t =>
      rw [hx] at h
      have ht : P 1 t := hf 0 s t (Nat.succ_pos m) (by simpa using hx) hs
      exact ih (fun j => P (j + 1)) (a + 1)
        (fun j u u' hj hu hP => hf (j + 1) u u' (by omega)
          (by rw [← hu]; congr 1; omega) hP) t s' h ht

theorem gaulegBody_spec (fuel n : ℕ) (xm xl : ℝ) (s s' : List ℝ × List ℝ) (i : ℕ)
    (h : gaulegBody fuel n xm xl s i = .ok s') :
    ∃ z w : ℝ, i - 1 < s.1.length ∧ n - i < s.1.length ∧ i - 1 < s.2.length
      ∧ n - i < s.2.length
      ∧ s'.1 = (s.1.set (i - 1) (xm - xl * z)).set (n - i) (xm + xl * z)
      ∧ s'.2 = (s.2.set (i - 1) w).set (n - i) w := by
  unfold gaulegBody at h
  simp only [Bind.bind, Except.bind] at h
  split at h
  · cases h
  · rename_i v hv
    obtain ⟨z, pp⟩ := v
    simp only at h
    unfold wr rd at h
    by_cases h1 : i - 1 < s.1.length
    · by_cases h2 : n - i < s.1.length
      · by_cases h3 : i - 1 < s.2.length
        · by_cases h4 : n - i < s.2.length
          · refine ⟨z, 2.0 * xl / ((1.0 - z * z) * pp * pp), h1, h2, h3, h4, ?_⟩
            simp only [h1, h2, h3, h4, if_true, List.length_set, List.getElem?_set_self,
              Pure.pure, Except.pure] at h
            split_ifs at h
            cases h
            exact ⟨rfl, rfl⟩
          · simp only [h1, h2, h3, h4, if_true, if_false, List.length_set,
              List.getElem?_set_self, Pure.pure, Except.pure] at h
            split_ifs at h
        · simp only [h1, h2, h3, if_true, if_false, List.length_set, Pure.pure,
            Except.pure] at h
          split_ifs at h
      · simp only [h1, h2, if_true, if_false, List.length_set] at h
        cases h
    · simp only [h1, if_false] at h
      cases h

theorem gauleg_symmetric (fuel n : ℕ) (xq wq : List ℝ) (q : List ℝ × List ℝ)
    (h : gauleg fuel n xq wq = .ok q) (k : ℕ) (hk : k < n) :
    (2 * k + 1 ≠ n → q.1.getD k 0 + q.1.getD (n - 1 - k) 0 = 1)
      ∧ q.2.getD k 0 = q.2.getD (n - 1 - k) 0 := by
  unfold gauleg at h
  simp only at h
  have hinv := foldlM_range'_inv (gaulegBody fuel n (0.5 * (1 + 0)) (0.5 * (1 - 0)))
    ((n + 1) / 2)
    (fun j s => ∀ k, k < j → (2 * k + 1 ≠ n → s.1.getD k 0 + s.1.getD (n - 1 - k) 0 = 1)
      ∧ s.2.getD k 0 = s.2.getD (n - 1 - k) 0) 1
    (by
      intro j s s' hj hb hP k hkj
      obtain ⟨z, w, h1, h2, h3, h4, e1, e2⟩ := gaulegBody_spec _ _ _ _ _ _ _ hb
      have hi : 1 + j - 1 = j := by omega
      have hni : n - (1 + j) = n - 1 - j := by omega
      simp only [hi, hni] at h1 h2 h3 h4 e1 e2
      have hjn : 2 * j + 1 ≤ n := by omega
      rw [e1, e2]
      by_cases hkj' : k = j
      · subst hkj'
        constructor
        · intro hne
          have hne' : k ≠ n - 1 - k := by omega
          rw [getD_set_ne _ _ _ _ (Ne.symm hne'), getD_set_self _ _ _ h1,
            getD_set_self _ _ _ (by rw [List.length_set]; exact h2)]
          ring
        · by_cases hmid : k = n - 1 - k
          · rw [← hmid]
          · rw [getD_set_ne _ _ _ _ (Ne.symm hmid), getD_set_self _ _ _ h3,
              getD_set_self _ _ _ (by rw [List.length_set]; exact h4)]
      · have hlt : k < j := by omega
        obtain ⟨p1, p2⟩ := hP k hlt
        have a1 : n - 1 - j ≠ k := by omega
        have a2 : j ≠ k := by omega
        have a3 : n - 1 - j ≠ n - 1 - k := by omega
        have a4 : j ≠ n - 1 - k := by omega
        rw [getD_set_ne _ _ _ _ a1, getD_set_ne _ _ _ _ a2, getD_set_ne _ _ _ _ a3,
          getD_set_ne _ _ _ _ a4, getD_set_ne _ _ _ _ a1, getD_set_ne _ _ _ _ a2,
          getD_set_ne _ _ _ _ a3, getD_set_ne _ _ _ _ a4]
        exact ⟨p1, p2⟩)
    (xq, wq) q h (by intro k hk0; omega)
  by_cases hlow : k < (n + 1) / 2
  · exact hinv k hlow
  · have hlow' : n - 1 - k < (n + 1) / 2 := by omega
    obtain ⟨p1, p2⟩ := hinv (n - 1 - k) hlow'
    have hback : n - 1 - (n - 1 - k) = k := by omega
    rw [hback] at p1 p2
    refine ⟨fun hne => ?_, p2.symm⟩
    rw [add_comm]
    exact p1 (by omega)

/-! ## Moments of the rule of order two -/

/-- Claim C3.  For a parameter vector and a centre table long enough for the occurrence
layout, every probability is in `[1e-7, 1 - 1e-7]` after the clamp of `nllk_p_C`, and
`nllk_p_C` returns a value `v` that is non-negative and lies between
`n·(-log(1 - 1e-7))` and `n·(-log(1e-7))`, where `n` is the number of observations. -/
theorem nllk_p_C_nonneg_bounded (par : List ℝ) (dat : List Obs) (centers : List (ℝ × ℝ))
    (Kcen : ℕ) (g : ℝ) (hp : Kcen + 5 ≤ par.length) (hc : Kcen ≤ centers.length) :
    (∀ pvec : Option ℝ, 1e-7 ≤ clampP pvec ∧ clampP pvec ≤ 1 - 1e-7)
    ∧ ∃ v, nllk_p_C par dat centers Kcen g = .ok v
        ∧ 0 ≤ v
        ∧ (dat.length : ℝ) * (-Real.log (1 - 1e-7)) ≤ v
        ∧ v ≤ (dat.length : ℝ) * (-Real.log 1e-7) := by
  have hb : ∀ pvec : Option ℝ, 1e-7 ≤ clampP pvec ∧ clampP pvec ≤ 1 - 1e-7 := by
    intro pvec
    have := clampP_bounds pvec
    constructor
    · norm_num at this ⊢
      exact this.1
    · norm_num at this ⊢
      exact this.2
  refine ⟨hb, _, nllk_p_C_ok par dat centers Kcen g hp hc, ?_⟩
  have hs := sum_map_bounds (fun o => -Real.log (clampP (pvecOf par centers Kcen g o)))
    (-Real.log (1 - 1e-7)) (-Real.log 1e-7) dat (by
      intro o _
      have h := hb (pvecOf par centers Kcen g o)
      have hpos : (0 : ℝ) < clampP (pvecOf par centers Kcen g o) :=
        lt_of_lt_of_le (by norm_num) h.1
      constructor
      · exact neg_le_neg (Real.log_le_log hpos h.2)
      · exact neg_le_neg (Real.log_le_log (by norm_num) h.1))
  refine ⟨?_, hs.1, hs.2⟩
  have hneg : 0 ≤ -Real.log (1 - 1e-7) := by
    have : Real.log (1 - 1e-7) ≤ 0 := Real.log_nonpos (by norm_num) (by norm_num)
    linarith
  exact le_trans (mul_nonneg (Nat.cast_nonneg _) hneg) hs.1

/-- Witness for claim C3: no centre, five zero parameters, one observation with count 1. -/
theorem nllk_p_C_nonneg_bounded_witness :
    (0 + 5 ≤ ([0, 0, 0, 0, 0] : List ℝ).length ∧ 0 ≤ ([] : List (ℝ × ℝ)).length)
      ∧ ((∀ pvec : Option ℝ, 1e-7 ≤ clampP pvec ∧ clampP pvec ≤ 1 - 1e-7)
        ∧ ∃ v, nllk_p_C [0, 0, 0, 0, 0] [⟨0, 1, 0, 0⟩] [] 0 1 = .ok v
          ∧ 0 ≤ v
          ∧ (([⟨0, 1, 0, 0⟩] : List Obs).length : ℝ) * (-Real.log (1 - 1e-7)) ≤ v
          ∧ v ≤ (([⟨0, 1, 0, 0⟩] : List Obs).length : ℝ) * (-Real.log 1e-7)) :=
  ⟨⟨by decide, by decide⟩,
    nllk_p_C_nonneg_bounded [0, 0, 0, 0, 0] [⟨0, 1, 0, 0⟩] [] 0 1 (by decide) (by decide)⟩

/-- Claim C4.  For a parameter vector and a centre table long enough for the intensity
layout, `nllk_lambda_C` returns the sum over the observations of
`-log(dSPoi(count_i, lambda_i))` with `lambda_i = exp(loglam_i)`, `loglam_i` being the link
of §4.3: the log-form term of the source is the logarithm of the shifted-Poisson density
at `count_i`.  (In the model this holds for every count, in particular for the integer
counts `≥ 1` of the claim.) -/
theorem nllk_lambda_C_eq_neg_log_dSPoi (par : List ℝ) (dat : List Obs)
    (centers : List (ℝ × ℝ)) (Kcen : ℕ) (g : ℝ) (hp : Kcen + 5 ≤ par.length)
    (hc : Kcen ≤ centers.length) :
    nllk_lambda_C par dat centers Kcen g
      = .ok ((dat.map (fun o =>
          -Real.log (dSPoi o.y (Real.exp (specLink par 0 centers Kcen g o))))).sum) := by
  rw [nllk_lambda_C_ok par dat centers Kcen g hp hc]
  congr 2
  apply List.map_congr_left
  intro o _
  rw [log_dSPoi_exp]

/-- Witness for claim C4: no centre, intercept 1, two observations with counts 1 and 3. -/
theorem nllk_lambda_C_eq_neg_log_dSPoi_witness :
    (0 + 5 ≤ ([1, 0, 0, 0, 0] : List ℝ).length ∧ 0 ≤ ([] : List (ℝ × ℝ)).length)
      ∧ nllk_lambda_C [1, 0, 0, 0, 0] [⟨0, 1, 0, 0⟩, ⟨1, 3, 0, 0⟩] [] 0 1
        = .ok ((([⟨0, 1, 0, 0⟩, ⟨1, 3, 0, 0⟩] : List Obs).map (fun o =>
            -Real.log (dSPoi o.y (Real.exp (specLink [1, 0, 0, 0, 0] 0 [] 0 1 o))))).sum) :=
  ⟨⟨by decide, by decide⟩,
    nllk_lambda_C_eq_neg_log_dSPoi [1, 0, 0, 0, 0] [⟨0, 1, 0, 0⟩, ⟨1, 3, 0, 0⟩] [] 0 1
      (by decide) (by decide)⟩

/-- Claim C5, the code at the failing input.  With no centre, the parameter vector
`[0,0,0,0,0, 1, 0,0,0,0, 0]` (intensity intercept `1`, so `lambda = e`; dependence weight
`0`, so `rho = 0`) and one observation with count `1`, the joint evaluator at order one
returns `dSPoi(2, e) / 2`: the copula difference is the mass of the count `2`, not of the
observed count `1`, whereas the intensity evaluator scores the same observation with
`dSPoi(1, e)`. -/
theorem joint_count_one_uses_mass_of_two :
    nllk_all_C 1 [0, 0, 0, 0, 0, 1, 0, 0, 0, 0, 0] [⟨0, 1, 0, 0⟩] [] 0 1 1
        = .ok (dSPoi 2 (Real.exp 1) / 2)
      ∧ nllk_lambda_C [1, 0, 0, 0, 0] [⟨0, 1, 0, 0⟩] [] 0 1
        = .ok (-Real.log (dSPoi 1 (Real.exp 1)))
      ∧ C2B1 (FSPoi (1 + 1) (Real.exp 1)) 0.5 0 - C2B1 (FSPoi 1 (Real.exp 1)) 0.5 0
        = dSPoi 2 (Real.exp 1)
      ∧ dSPoi 2 (Real.exp 1) ≠ dSPoi 1 (Real.exp 1) := by
  have hpos : 0 < dSPoi 2 (Real.exp 1) := by
    rw [dSPoi_two]
    positivity
  refine ⟨?_, ?_, ?_, ?_⟩
  · rw [nllk_all_C_eq 1 _ _ [] 0 1 1 (by decide) (by decide), gauleg_one 0]
    simp only [Except.map, jointValue, Finset.sum_range_one, List.filterMap_cons,
      List.filterMap_nil, logTerm_count_one_example, List.sum_cons, List.sum_nil, add_zero]
    rw [Real.exp_add, Real.exp_log (by norm_num), Real.exp_log hpos]
    simp
    ring
  · rw [nllk_lambda_C_ok _ _ [] 0 1 (by decide) (by decide)]
    have hb : specLink [1, 0, 0, 0, 0] 0 [] 0 1 ⟨0, 1, 0, 0⟩ = 1 := by
      simp [specLink, specField]
    simp only [List.map_cons, List.map_nil, List.sum_cons, List.sum_nil, add_zero, hb,
      ← log_dSPoi_exp]
  · have hdiff := copula_diff_indep 1 (Real.exp 1) 0.5 le_rfl (Real.exp_pos 1)
    rw [Nat.cast_one] at hdiff
    rw [hdiff]
    norm_num
  · rw [dSPoi_two, dSPoi_one]
    intro h
    have h1 : 0 < Real.exp (-Real.exp 1) := Real.exp_pos _
    have h2 : (1 : ℝ) < Real.exp 1 := by
      have := Real.add_one_lt_exp (by norm_num : (1 : ℝ) ≠ 0)
      linarith
    nlinarith

/-- Claim C6.  For a parameter vector and a centre table long enough for the joint layout:
the slicing and the distance matrix are computed without fault and the body of the
observation loop computes `logintg_i = logTerm …`, which is `none` when it is not finite;
at every quadrature node `k`, the observation loop of `nllk_all_C` ends with `logintg_k`
equal to the sum of the finite terms `logintg_i` only, and it ends with the same value on
the data table from which the observations with a non-finite term at that node are
removed; the value returned by `nllk_all_C` is `Σ_k exp(sum of the finite terms at node
k) · wl[k]` (or the fault of `gauleg`); and when the observations with a non-finite term
are the same at every node, removing them from the data table does not change the
returned value. -/
theorem nllk_all_C_skips_nonfinite (fuel : ℕ) (par : List ℝ) (dat : List Obs)
    (centers : List (ℝ × ℝ)) (Kcen : ℕ) (g : ℝ) (nq : ℕ) (hp : 3 * Kcen + 11 ≤ par.length)
    (hc : Kcen ≤ centers.length) :
    (jointPar par Kcen = .ok (jointParOf par Kcen)
        ∧ disMatrix dat centers Kcen = .ok (disOf dat centers Kcen)
        ∧ ∀ (xl : List ℝ) (k i : ℕ), k < xl.length → i < dat.length →
          obsTerm (jointParOf par Kcen) dat (disOf dat centers Kcen) xl Kcen g k i
            = .ok (logTerm par centers Kcen g (dat.getD i ⟨0, 0, 0, 0⟩) (xl.getD k 0)))
      ∧ (∀ (xl : List ℝ) (k : ℕ), k < xl.length →
        nodeSum (jointParOf par Kcen) dat (disOf dat centers Kcen) xl Kcen g k
            = .ok ((dat.filterMap (fun o => logTerm par centers Kcen g o (xl.getD k 0))).sum)
          ∧ nodeSum (jointParOf par Kcen)
              (dat.filter (fun o => R_finite (logTerm par centers Kcen g o (xl.getD k 0))))
              (disOf (dat.filter (fun o => R_finite (logTerm par centers Kcen g o
                (xl.getD k 0)))) centers Kcen) xl Kcen g k
            = nodeSum (jointParOf par Kcen) dat (disOf dat centers Kcen) xl Kcen g k)
      ∧ nllk_all_C fuel par dat centers Kcen g nq
          = (gauleg fuel nq (List.replicate nq 0) (List.replicate nq 0)).map (fun q =>
              ∑ k in Finset.range nq, Real.exp ((dat.filterMap
                (fun o => logTerm par centers Kcen g o (q.1.getD k 0))).sum) * q.2.getD k 0)
      ∧ (∀ keep : Obs → Bool,
          (∀ o ∈ dat, ∀ xk : ℝ, keep o = R_finite (logTerm par centers Kcen g o xk)) →
          nllk_all_C fuel par (dat.filter keep) centers Kcen g nq
            = nllk_all_C fuel par dat centers Kcen g nq) := by
  refine ⟨⟨jointPar_ok par Kcen hp, disMatrix_ok dat centers Kcen hc, ?_⟩, ?_, ?_, ?_⟩
  · intro xl k i hk hi
    exact obsTerm_ok par dat centers xl Kcen g k i hi (fun _ => hk)
  · intro xl k hk
    refine ⟨nodeSum_ok par dat centers xl Kcen g k hk, ?_⟩
    rw [nodeSum_ok par dat centers xl Kcen g k hk, nodeSum_ok par _ centers xl Kcen g k hk,
      filterMap_filter_finite _ _ dat (fun o _ => rfl)]
  · exact nllk_all_C_eq fuel par dat centers Kcen g nq hp hc
  · intro keep hkeep
    rw [nllk_all_C_eq fuel par dat centers Kcen g nq hp hc,
      nllk_all_C_eq fuel par (dat.filter keep) centers Kcen g nq hp hc]
    congr 1
    funext q
    unfold jointValue
    apply Finset.sum_congr rfl
    intro k _
    rw [filterMap_filter_finite _ keep dat (fun o ho => hkeep o ho _)]

/-- Witness for claim C6: no centre, eleven zero parameters, order one, and a table of two
observations, the first with the count `-1` (its copula difference is `0`, so its term is
not finite), the second with the count `0`. -/
theorem nllk_all_C_skips_nonfinite_witness :
    (3 * 0 + 11 ≤ ([0, 0, 0, 0, 0, 0, 0, 0, 0, 0, 0] : List ℝ).length
        ∧ 0 ≤ ([] : List (ℝ × ℝ)).length)
      ∧ ((jointPar [0, 0, 0, 0, 0, 0, 0, 0, 0, 0, 0] 0
            = .ok (jointParOf [0, 0, 0, 0, 0, 0, 0, 0, 0, 0, 0] 0)
          ∧ disMatrix [⟨0, -1, 0, 0⟩, ⟨0, 0, 0, 0⟩] [] 0
            = .ok (disOf [⟨0, -1, 0, 0⟩, ⟨0, 0, 0, 0⟩] [] 0)
          ∧ ∀ (xl : List ℝ) (k i : ℕ), k < xl.length →
            i < ([⟨0, -1, 0, 0⟩, ⟨0, 0, 0, 0⟩] : List Obs).length →
            obsTerm (jointParOf [0, 0, 0, 0, 0, 0, 0, 0, 0, 0, 0] 0)
                [⟨0, -1, 0, 0⟩, ⟨0, 0, 0, 0⟩]
                (disOf [⟨0, -1, 0, 0⟩, ⟨0, 0, 0, 0⟩] [] 0) xl 0 1 k i
              = .ok (logTerm [0, 0, 0, 0, 0, 0, 0, 0, 0, 0, 0] [] 0 1
                  (([⟨0, -1, 0, 0⟩, ⟨0, 0, 0, 0⟩] : List Obs).getD i ⟨0, 0, 0, 0⟩)
                  (xl.getD k 0)))
        ∧ (∀ (xl : List ℝ) (k : ℕ), k < xl.length →
          nodeSum (jointParOf [0, 0, 0, 0, 0, 0, 0, 0, 0, 0, 0] 0)
              [⟨0, -1, 0, 0⟩, ⟨0, 0, 0, 0⟩]
              (disOf [⟨0, -1, 0, 0⟩, ⟨0, 0, 0, 0⟩] [] 0) xl 0 1 k
            = .ok ((([⟨0, -1, 0, 0⟩, ⟨0, 0, 0, 0⟩] : List Obs).filterMap (fun o =>
                logTerm [0, 0, 0, 0, 0, 0, 0, 0, 0, 0, 0] [] 0 1 o (xl.getD k 0))).sum)
          ∧ nodeSum (jointParOf [0, 0, 0, 0, 0, 0, 0, 0, 0, 0, 0] 0)
              (([⟨0, -1, 0, 0⟩, ⟨0, 0, 0, 0⟩] : List Obs).filter (fun o => R_finite
                (logTerm [0, 0, 0, 0, 0, 0, 0, 0, 0, 0, 0] [] 0 1 o (xl.getD k 0))))
              (disOf (([⟨0, -1, 0, 0⟩, ⟨0, 0, 0, 0⟩] : List Obs).filter (fun o => R_finite
                (logTerm [0, 0, 0, 0, 0, 0, 0, 0, 0, 0, 0] [] 0 1 o (xl.getD k 0)))) [] 0)
              xl 0 1 k
            = nodeSum (jointParOf [0, 0, 0, 0, 0, 0, 0, 0, 0, 0, 0] 0)
                [⟨0, -1, 0, 0⟩, ⟨0, 0, 0, 0⟩]
                (disOf [⟨0, -1, 0, 0⟩, ⟨0, 0, 0, 0⟩] [] 0) xl 0 1 k)
        ∧ nllk_all_C 1 [0, 0, 0, 0, 0, 0, 0, 0, 0, 0, 0] [⟨0, -1, 0, 0⟩, ⟨0, 0, 0, 0⟩] [] 0 1 1
          = (gauleg 1 1 (List.replicate 1 0) (List.replicate 1 0)).map (fun q =>
              ∑ k in Finset.range 1, Real.exp
                ((([⟨0, -1, 0, 0⟩, ⟨0, 0, 0, 0⟩] : List Obs).filterMap (fun o =>
                  logTerm [0, 0, 0, 0, 0, 0, 0, 0, 0, 0, 0] [] 0 1 o (q.1.getD k 0))).sum)
                * q.2.getD k 0)
        ∧ (∀ keep : Obs → Bool,
            (∀ o ∈ ([⟨0, -1, 0, 0⟩, ⟨0, 0, 0, 0⟩] : List Obs), ∀ xk : ℝ,
              keep o = R_finite (logTerm [0, 0, 0, 0, 0, 0, 0, 0, 0, 0, 0] [] 0 1 o xk)) →
            nllk_all_C 1 [0, 0, 0, 0, 0, 0, 0, 0, 0, 0, 0]
                (([⟨0, -1, 0, 0⟩, ⟨0, 0, 0, 0⟩] : List Obs).filter keep) [] 0 1 1
              = nllk_all_C 1 [0, 0, 0, 0, 0, 0, 0, 0, 0, 0, 0]
                  [⟨0, -1, 0, 0⟩, ⟨0, 0, 0, 0⟩] [] 0 1 1)) :=
  ⟨⟨by decide, by decide⟩,
    nllk_all_C_skips_nonfinite 1 [0, 0, 0, 0, 0, 0, 0, 0, 0, 0, 0]
      [⟨0, -1, 0, 0⟩, ⟨0, 0, 0, 0⟩] [] 0 1 1 (by decide) (by decide)⟩

/-- The table of the witness of claim C6, evaluated: the observation with count `-1` is
skipped and the value is that of the table reduced to the observation with count `0`. -/
theorem nllk_all_C_skip_example :
    logTerm [0, 0, 0, 0, 0, 0, 0, 0, 0, 0, 0] [] 0 1 ⟨0, -1, 0, 0⟩ 0.5 = none
      ∧ nllk_all_C 1 [0, 0, 0, 0, 0, 0, 0, 0, 0, 0, 0] [⟨0, -1, 0, 0⟩, ⟨0, 0, 0, 0⟩] [] 0 1 1
        = .ok 0.5
      ∧ nllk_all_C 1 [0, 0, 0, 0, 0, 0, 0, 0, 0, 0, 0] [⟨0, 0, 0, 0⟩] [] 0 1 1 = .ok 0.5 := by
  have hl : specLink [0, 0, 0, 0, 0, 0, 0, 0, 0, 0, 0] 0 [] 0 1 ⟨0, 0, 0, 0⟩ = 0 := by
    simp [specLink, specField]
  have h2 : nllk_all_C 1 [0, 0, 0, 0, 0, 0, 0, 0, 0, 0, 0] [⟨0, 0, 0, 0⟩] [] 0 1 1
      = .ok 0.5 := by
    rw [nllk_all_C_single_zero_one 0 0 1 [] _ ⟨0, 0, 0, 0⟩ (by decide) (by decide) rfl, hl]
    norm_num
  refine ⟨logTerm_count_neg_one _ _ _ _ _ _ rfl, ?_, h2⟩
  rw [← h2, nllk_all_C_eq 1 _ _ [] 0 1 1 (by decide) (by decide),
    nllk_all_C_eq 1 _ _ [] 0 1 1 (by decide) (by decide)]
  congr 1
  funext q
  unfold jointValue
  apply Finset.sum_congr rfl
  intro k _
  have hn : logTerm [0, 0, 0, 0, 0, 0, 0, 0, 0, 0, 0] [] 0 1 ⟨0, -1, 0, 0⟩ (q.1.getD k 0)
      = none := logTerm_count_neg_one _ _ _ _ _ _ rfl
  simp only [List.filterMap_cons, hn]

/-- Claim C8.  For every `u` in `(0,1)` and every `v`, `C2B1(u, v, 0) = u`: with
`rho = 0` the conditional copula distribution function is `Φ(Φ⁻¹(u))` and does not
depend on `v`. -/
theorem C2B1_rho_zero (u v : ℝ) (h0 : 0 < u) (h1 : u < 1) :
    C2B1 u v 0 = u ∧ C2B1 u v 0 = Phi (gsl_cdf_ugaussian_Pinv u) := by
  have h := C2B1_zero u v h0 h1
  exact ⟨h, by rw [h, Phi_Pinv h0 h1]⟩

/-- Witness for claim C8: `u = 1/4`, `v = 3/4`. -/
theorem C2B1_rho_zero_witness :
    ((0 : ℝ) < 1 / 4 ∧ (1 / 4 : ℝ) < 1)
      ∧ (C2B1 (1 / 4) (3 / 4) 0 = 1 / 4
        ∧ C2B1 (1 / 4) (3 / 4) 0 = Phi (gsl_cdf_ugaussian_Pinv (1 / 4))) :=
  ⟨⟨by norm_num, by norm_num⟩, C2B1_rho_zero (1 / 4) (3 / 4) (by norm_num) (by norm_num)⟩

/-- Claim C10.  For every `lambda` and every integer `X ≥ 1` (and also for `X = 0`, where
both sides are empty sums), the sum of `dSPoi(x, lambda)` over `x = 1, …, X` equals
`FSPoi(X, lambda)`. -/
theorem sum_dSPoi_eq_FSPoi (lam : ℝ) (X : ℕ) :
    ∑ x in Finset.Icc 1 X, dSPoi (x : ℝ) lam = FSPoi (X : ℝ) lam := by
  rw [FSPoi_natCast]
  have hI : Finset.Icc 1 X = Finset.Ico 1 (X + 1) := by
    ext a; simp [Nat.lt_succ_iff]
  rw [hI, Finset.sum_Ico_eq_sum_range]
  simp only [Nat.add_sub_cancel]
  apply Finset.sum_congr rfl
  intro i _
  have e : ((1 + i : ℕ) : ℝ) = (i : ℝ) + 1 := by push_cast; ring
  rw [e, dSPoi_natCast]

/-- Claim C11.  For every `lambda ≥ 0` and all integers `x ≤ x'` (in particular
`1 ≤ x ≤ x'`), `FSPoi(x, lambda) ≤ FSPoi(x', lambda)`: the shifted-Poisson distribution
function is non-decreasing in `x`. -/
theorem FSPoi_nondecreasing (lam : ℝ) (hlam : 0 ≤ lam) (x x' : ℕ) (hle : x ≤ x') :
    FSPoi (x : ℝ) lam ≤ FSPoi (x' : ℝ) lam :=
  FSPoi_mono_nat lam hlam x x' hle

/-- Witness for claim C11: `lambda = 1`, `x = 1`, `x' = 2`. -/
theorem FSPoi_nondecreasing_witness :
    (0 : ℝ) ≤ 1 ∧ 1 ≤ 2 ∧ FSPoi ((1 : ℕ) : ℝ) 1 ≤ FSPoi ((2 : ℕ) : ℝ) 1 :=
  ⟨by norm_num, by decide, FSPoi_nondecreasing 1 (by norm_num) 1 2 (by decide)⟩

/-- Claim C13.  The evaluator `nllk_p_C` looks at a count only through the test
`count == 1`.  For every input: if a data table is obtained from another by changing
counts, where every observation keeps its time and coordinates and has count `1` in the one
table exactly when it has count `1` in the other, `nllk_p_C` returns the same result on
both tables; in particular, replacing the count of an observation whose count is not `1`
(for example `2` or `3`) by `0` or by any other value `c ≠ 1` leaves the result
unchanged. -/
theorem nllk_p_C_count_only_through_one (par : List ℝ) (dat : List Obs)
    (centers : List (ℝ × ℝ)) (Kcen : ℕ) (g : ℝ) :
    (∀ dat' : List Obs, List.Forall₂ (fun o o' : Obs =>
        o'.tt = o.tt ∧ o'.LON = o.LON ∧ o'.LAT = o.LAT ∧ (o'.y = 1 ↔ o.y = 1)) dat dat' →
      nllk_p_C par dat' centers Kcen g = nllk_p_C par dat centers Kcen g)
    ∧ ∀ (i : ℕ) (o : Obs) (c : ℝ), dat[i]? = some o → o.y ≠ 1 → c ≠ 1 →
      nllk_p_C par (dat.set i ⟨o.tt, c, o.LON, o.LAT⟩) centers Kcen g
        = nllk_p_C par dat centers Kcen g :=
  ⟨fun dat' h => (nllk_p_C_congr par dat dat' centers Kcen g h).symm,
    fun i o c hi hy hc => nllk_p_C_set_count par dat centers Kcen g i o c hi hy hc⟩

/-- Witness for claim C13: no centre, five zero parameters, a table of two observations
with counts `2` and `1`; the count `2` of the first observation is replaced by `0`. -/
theorem nllk_p_C_count_only_through_one_witness :
    ([⟨0, 2, 0, 0⟩, ⟨1, 1, 0, 0⟩] : List Obs)[0]? = some ⟨0, 2, 0, 0⟩
      ∧ (2 : ℝ) ≠ 1 ∧ (0 : ℝ) ≠ 1
      ∧ nllk_p_C [0, 0, 0, 0, 0]
          (([⟨0, 2, 0, 0⟩, ⟨1, 1, 0, 0⟩] : List Obs).set 0 ⟨0, 0, 0, 0⟩) List.nil 0 1
        = nllk_p_C [0, 0, 0, 0, 0] [⟨0, 2, 0, 0⟩, ⟨1, 1, 0, 0⟩] List.nil 0 1 :=
  ⟨rfl, by norm_num, by norm_num,
    (nllk_p_C_count_only_through_one [0, 0, 0, 0, 0] [⟨0, 2, 0, 0⟩, ⟨1, 1, 0, 0⟩]
      List.nil 0 1).2 0 ⟨0, 2, 0, 0⟩ 0 rfl (by norm_num) (by norm_num)⟩

/-- Claim C17.  For every `Kcen` and `nq`, with parameter vectors of at least `3*Kcen+11`
entries and a centre table of at least `Kcen` rows: no read or write of `nllk_all_C` (of
`par`, the weight blocks, `centers`, `dis`, `xl`, `wl`, nor of `xq[i-1]`, `xq[n-i]`,
`wq[i-1]`, `wq[n-i]` inside `gauleg`) is out of bounds, the evaluator returns a value
whenever `gauleg` returns its nodes and weights, and two parameter vectors that agree on
the indices `0..3*Kcen+10` give the same result. -/
theorem nllk_all_C_reads_joint_layout (fuel : ℕ) (par par' : List ℝ) (dat : List Obs)
    (centers : List (ℝ × ℝ)) (Kcen : ℕ) (g : ℝ) (nq : ℕ) (hp : 3 * Kcen + 11 ≤ par.length)
    (hp' : 3 * Kcen + 11 ≤ par'.length) (hc : Kcen ≤ centers.length)
    (hagree : ∀ j, j ≤ 3 * Kcen + 10 → par.getD j 0 = par'.getD j 0) :
    gauleg fuel nq (List.replicate nq 0) (List.replicate nq 0) ≠ .error .outOfBounds
      ∧ nllk_all_C fuel par dat centers Kcen g nq ≠ .error .outOfBounds
      ∧ (∀ q, gauleg fuel nq (List.replicate nq 0) (List.replicate nq 0) = .ok q →
          ∃ v, nllk_all_C fuel par dat centers Kcen g nq = .ok v)
      ∧ nllk_all_C fuel par' dat centers Kcen g nq
          = nllk_all_C fuel par dat centers Kcen g nq := by
  refine ⟨gauleg_not_outOfBounds fuel nq _ _ (List.length_replicate _ _)
      (List.length_replicate _ _),
    nllk_all_C_not_outOfBounds fuel par dat centers Kcen g nq hp hc, ?_, ?_⟩
  · intro q hq
    rw [nllk_all_C_eq fuel par dat centers Kcen g nq hp hc, hq]
    exact ⟨_, rfl⟩
  · exact (nllk_all_C_congr fuel par par' dat centers Kcen g nq hp hp' hc
      (fun o _ xk => logTerm_congr par par' centers Kcen g o xk hagree)).symm

/-- Witness for claim C17: no centre, eleven zero parameters against the same vector
extended by a twelfth entry `5`, one observation with count 0, order one. -/
theorem nllk_all_C_reads_joint_layout_witness :
    (3 * 0 + 11 ≤ ([0, 0, 0, 0, 0, 0, 0, 0, 0, 0, 0] : List ℝ).length
      ∧ 3 * 0 + 11 ≤ ([0, 0, 0, 0, 0, 0, 0, 0, 0, 0, 0, 5] : List ℝ).length
      ∧ 0 ≤ (List.nil : List (ℝ × ℝ)).length
      ∧ ∀ j, j ≤ 3 * 0 + 10 → ([0, 0, 0, 0, 0, 0, 0, 0, 0, 0, 0] : List ℝ).getD j 0
          = ([0, 0, 0, 0, 0, 0, 0, 0, 0, 0, 0, 5] : List ℝ).getD j 0)
      ∧ nllk_all_C 1 [0, 0, 0, 0, 0, 0, 0, 0, 0, 0, 0, 5] [⟨0, 0, 0, 0⟩] List.nil 0 1 1
          = nllk_all_C 1 [0, 0, 0, 0, 0, 0, 0, 0, 0, 0, 0] [⟨0, 0, 0, 0⟩] List.nil 0 1 1 :=
  ⟨⟨by decide, by decide, by decide,
      fun j hj => by interval_cases j <;> rfl⟩,
    (nllk_all_C_reads_joint_layout 1 [0, 0, 0, 0, 0, 0, 0, 0, 0, 0, 0]
      [0, 0, 0, 0, 0, 0, 0, 0, 0, 0, 0, 5] [⟨0, 0, 0, 0⟩] List.nil 0 1 1 (by decide)
      (by decide) (by decide) (fun j hj => by interval_cases j <;> rfl)).2.2.2⟩

/-- Claim C18.  If every observation of the data table has count 0, the value returned by
`nllk_all_C` does not depend on the intensity block nor on the dependence block: two
parameter vectors (each of at least `3*Kcen+11` entries) that agree on the indices
`0..Kcen+4` give the same result for the same data, centres, `Kcen`, `g` and `nq`. -/
theorem nllk_all_C_zero_counts_occurrence_only (fuel : ℕ) (par par' : List ℝ)
    (dat : List Obs) (centers : List (ℝ × ℝ)) (Kcen : ℕ) (g : ℝ) (nq : ℕ)
    (hp : 3 * Kcen + 11 ≤ par.length) (hp' : 3 * Kcen + 11 ≤ par'.length)
    (hc : Kcen ≤ centers.length) (hzero : ∀ o ∈ dat, o.y = 0)
    (hagree : ∀ j, j ≤ Kcen + 4 → par.getD j 0 = par'.getD j 0) :
    nllk_all_C fuel par' dat centers Kcen g nq
      = nllk_all_C fuel par dat centers Kcen g nq :=
  (nllk_all_C_congr fuel par par' dat centers Kcen g nq hp hp' hc
    (fun o ho xk =>
      logTerm_congr_zero_count par par' centers Kcen g o xk (hzero o ho) hagree)).symm

/-- Witness for claim C18: no centre, order one, two observations with count 0, and two
parameter vectors that agree on the occurrence block `0..4` and differ on every entry of
the intensity and dependence blocks. -/
theorem nllk_all_C_zero_counts_occurrence_only_witness :
    (3 * 0 + 11 ≤ ([0, 0, 0, 0, 0, 0, 0, 0, 0, 0, 0] : List ℝ).length
      ∧ 3 * 0 + 11 ≤ ([0, 0, 0, 0, 0, 1, 2, 3, 4, 5, 6] : List ℝ).length
      ∧ 0 ≤ (List.nil : List (ℝ × ℝ)).length
      ∧ (∀ o ∈ ([⟨0, 0, 0, 0⟩, ⟨1, 0, 2, 3⟩] : List Obs), o.y = 0)
      ∧ ∀ j, j ≤ 0 + 4 → ([0, 0, 0, 0, 0, 0, 0, 0, 0, 0, 0] : List ℝ).getD j 0
          = ([0, 0, 0, 0, 0, 1, 2, 3, 4, 5, 6] : List ℝ).getD j 0)
      ∧ nllk_all_C 1 [0, 0, 0, 0, 0, 1, 2, 3, 4, 5, 6] [⟨0, 0, 0, 0⟩, ⟨1, 0, 2, 3⟩]
            List.nil 0 1 1
          = nllk_all_C 1 [0, 0, 0, 0, 0, 0, 0, 0, 0, 0, 0] [⟨0, 0, 0, 0⟩, ⟨1, 0, 2, 3⟩]
            List.nil 0 1 1 :=
  ⟨⟨by decide, by decide, by decide,
      fun o ho => by
        simp only [List.mem_cons, List.mem_singleton, List.not_mem_nil, or_false] at ho
        rcases ho with rfl | rfl <;> rfl,
      fun j hj => by interval_cases j <;> rfl⟩,
    nllk_all_C_zero_counts_occurrence_only 1 [0, 0, 0, 0, 0, 0, 0, 0, 0, 0, 0]
      [0, 0, 0, 0, 0, 1, 2, 3, 4, 5, 6] [⟨0, 0, 0, 0⟩, ⟨1, 0, 2, 3⟩] List.nil 0 1 1
      (by decide) (by decide) (by decide)
      (fun o ho => by
        simp only [List.mem_cons, List.mem_singleton, List.not_mem_nil, or_false] at ho
        rcases ho with rfl | rfl <;> rfl)
      (fun j hj => by interval_cases j <;> rfl)⟩

end

end Stfc
